import Mathlib

/-!
Verification of the ui-job-metrics execution-data cache layer.

Shallow embedding of the two core modules of the repository:

* `src/main/rdplugin/assets/js/lib/executionDataManager.js` — the cache
  manager (IndexedDB adapter for the own `jobMetricsCache` database and the
  read-only peer `roiCache` database, classification, merging, refresh logic).
* `src/main/rdplugin/assets/js/lib/jobMetricsWorker.js` — the background
  worker (concurrency pool, paginated fetch with retries, metric processing).

Modelling conventions:
* JS `Map` objects and IndexedDB object stores are association lists
  `List (String × α)`; `Map.set` / `store.put` is `putA` (update in place,
  preserving insertion order, else append), `Map.get` / `store.get` is
  `lookupA`.
* Timestamps are milliseconds as `Int`; calendar days are day indices as
  `Int` (moment day-granularity comparisons become `Int` comparisons).
* Nullable / possibly-absent JS fields are `Option`; a JS value that can be
  `true`, `false` or `null` is `Option Bool` with `none` for `null`, and JS
  truthiness of such a value is `jsTruthy`.
* Asynchronous code is modelled by explicit state passing; network and
  worker results are supplied by an environment (oracle).
-/

namespace JobMetrics

/-- JS truthiness of a `true | false | null` value. -/
def jsTruthy (v : Option Bool) : Bool := v.getD false

/-- One execution record as consumed from the host API envelope
(fields used by the manager and the worker). -/
structure Execution where
  /-- `execution.id`, the dedup key. -/
  id : String
  /-- start day of `execution.date-started.date` / `execution.dateStarted`,
  at day granularity (`moment(d).startOf(day)`); `none` when the record has
  no parseable start date. -/
  day : Option Int
  /-- `execution.status` string. -/
  status : String
  /-- `execution.duration`; `none` when absent. -/
  duration : Option Int
  /-- `execution.roiHours`; `none` when `undefined` or `null`. -/
  roiHours : Option Int
  /-- `execution.hasRoi` as attached by the worker; `none` when the
  property is absent. -/
  hasRoi : Option Bool
  deriving Repr, DecidableEq

/-- Association-list model of a JS `Map` / IndexedDB object store keyed by
string: `set`/`put` updates an existing key in place (preserving order)
and otherwise appends. -/
def putA (m : List (String × α)) (k : String) (v : α) : List (String × α) :=
  if m.any (fun p => p.1 = k) then
    m.map (fun p => if p.1 = k then (k, v) else p)
  else
    m ++ [(k, v)]

/-- Association-list lookup, the model of `Map.get` / `store.get`. -/
def lookupA (m : List (String × α)) (k : String) : Option α :=
  (m.find? (fun p => p.1 = k)).map (·.2)

/-- Keys of an association list. -/
def keysA (m : List (String × α)) : List String := m.map (·.1)

/-- Insert every execution of `xs` into the map `m` keyed by its `id`,
in order (`xs.forEach(exec => executionMap.set(exec.id, exec))`). -/
def insertAll (m : List (String × Execution)) (xs : List Execution) :
    List (String × Execution) :=
  xs.foldl (fun m e => putA m e.id e) m

/-- The merge used both in `getJobExecutions` and in `cacheExecutions`:
a fresh `Map`, cached executions inserted first, fresh executions inserted
second (overwriting on equal `id`), then `Array.from(map.values())`. -/
def mergeById (cached fresh : List Execution) : List Execution :=
  (insertAll (insertAll [] cached) fresh).map (·.2)

/-- Does this execution start on or after the cutoff day?  An execution
without a parseable start date yields an invalid moment, for which
`isSameOrAfter` is `false`. -/
def startsOnOrAfter (e : Execution) (cutoff : Int) : Bool :=
  match e.day with
  | some d => cutoff ≤ d
  | none => false

/-- `filterExecutionsByDate(executions, cutoffDate)` of
executionDataManager.js: returns the input unchanged when the list is
empty (the `!executions.length` guard), else keeps the executions whose
start day `isSameOrAfter` the cutoff day.  The `!cutoffDate` guard is not
modelled: the cutoff is always a truthy moment object at every call site. -/
def filterExecutionsByDate (executions : List Execution) (cutoff : Int) :
    List Execution :=
  if executions = [] then executions
  else executions.filter (fun e => startsOnOrAfter e cutoff)

/-- The summary block computed by `processExecutionData` of
jobMetricsWorker.js (the exactly-computable fields; the float-valued
`successRate` and `avgDuration` are not modelled). -/
structure Summary where
  total : Nat
  successful : Nat
  failed : Nat
  totalDuration : Int
  hasRoi : Bool
  deriving Repr, DecidableEq

/-- Per-execution step of the `executions.forEach` loop of
`processExecutionData`: status bookkeeping, duration accumulation and ROI
detection (the by-date / by-hour buckets are not modelled). -/
def processStep (s : Summary) (e : Execution) : Summary :=
  let s := if e.roiHours.isSome then { s with hasRoi := true } else s
  let s :=
    if e.status = "succeeded" then { s with successful := s.successful + 1 }
    else { s with failed := s.failed + 1 }
  let s :=
    match e.duration with
    | some d => if d ≠ 0 then { s with totalDuration := s.totalDuration + d } else s
    | none => s
  s

/-- `processExecutionData(executions)` of jobMetricsWorker.js, restricted
to its summary output: counters start at zero, the `forEach` loop runs
over the list (it is skipped for an empty list, which leaves the zero
counters, exactly as the code does), and `summary.total` is
`executions.length`. -/
def processExecutionData (executions : List Execution) : Summary :=
  let s := executions.foldl processStep
    { total := 0, successful := 0, failed := 0, totalDuration := 0, hasRoi := false }
  { s with total := executions.length }

/-! ### State model of the ExecutionDataManager database layer

The manager owns the `jobMetricsCache` IndexedDB database ("own store") and
reads the ROI Summary plugin's `roiCache` database ("peer store").  Both
databases have `jobCache` and `executionCache` object stores keyed by job
id (the `metrics` store is never used and is not modelled).  The model
threads an explicit `MState` through every operation and counts every
`indexedDB.open` attempt on the peer database (`peerOpens`) and every
transaction opened on it (`peerTx` read-only, `peerWriteTx` read-write). -/

/-- An inclusive calendar-day range (`dateRange.begin` / `dateRange.end`,
at day granularity). -/
structure DateRange where
  begin : Int
  end_ : Int
  deriving Repr, DecidableEq

/-- A `jobCache` registry row.  `timestamp = 0` models a missing/falsy
timestamp; `hasRoi = none` models the `hasRoi` property being absent;
`assumed`/`fromRoi` are `false` when the property is absent. -/
structure JobInfo where
  id : String
  timestamp : Int
  hasRoi : Option Bool
  assumed : Bool
  fromRoi : Bool
  deriving Repr, DecidableEq

/-- An `executionCache` row.  `hasRoi = none` models the field being
`undefined` or `null` (no modelled decision distinguishes the two). -/
structure CacheEntry where
  id : String
  jobId : String
  data : List Execution
  timestamp : Int
  dateRange : Option DateRange
  hasRoi : Option Bool
  deriving Repr, DecidableEq

/-- A value of the in-memory `processedJobRegistry` map.  Every write site
includes the `hasRoi` key, so the property is always present; its value may
be `null` (`none`). -/
structure RegEntry where
  timestamp : Int
  hasRoi : Option Bool
  assumed : Bool
  fromRoi : Bool
  deriving Repr, DecidableEq

/-- Contents of one IndexedDB database.  `hasStores` is whether the
`jobCache`/`executionCache` object stores exist (they do not in a database
that was only ever created empty by a bare `indexedDB.open`). -/
structure Db where
  hasStores : Bool
  jobCache : List (String × JobInfo)
  executionCache : List (String × CacheEntry)
  deriving Repr, DecidableEq

/-- A freshly created database with no object stores. -/
def emptyDb : Db := ⟨false, [], []⟩

/-- The manager state: own database contents, peer database contents
(`none` when the `roiCache` database does not exist), connection flags
(`this.db`, `this.roiDb`), the in-memory job registry, and instrumentation
counters for peer-database opens and transactions. -/
structure MState where
  own : Db
  peer : Option Db
  dbInit : Bool
  roiConn : Bool
  registry : List (String × RegEntry)
  peerOpens : Nat
  peerTx : Nat
  peerWriteTx : Nat
  deriving Repr, DecidableEq

/-- Rows of the peer database (empty when it does not exist): the
observable contents the read-only discipline must preserve. -/
def peerContents (s : MState) : List (String × JobInfo) × List (String × CacheEntry) :=
  match s.peer with
  | none => ([], [])
  | some d => (d.jobCache, d.executionCache)

/-- Per-call environment: the `window.RDPRO["ui-jobmetrics"].hasRoiSummary
=== false` flag, whether a peer-database open would succeed, the current
time (`Date.now()`), the current day (moment day granularity), and the
execution list the worker resolves with. -/
structure Env where
  peerAbsent : Bool
  roiOpenOk : Bool
  nowMs : Int
  today : Int
  workerResult : List Execution
  deriving Repr, DecidableEq

/-- `EXECUTION_CACHE_TTL` (24 hours in milliseconds). -/
def cacheTTL : Int := 1000 * 60 * 60 * 24

/-- `CACHE_FRESHNESS_THRESHOLD` (8 hours) in milliseconds. -/
def freshnessMs : Int := 8 * 60 * 60 * 1000

/-- The 1-hour peer-cache freshness window of `needsCacheRefresh`. -/
def roiFreshMs : Int := 1 * 60 * 60 * 1000

/-- `getFromDb(this.db, jobCache, key)`: own-database read; `null` when
the connection is absent. The own database always has its stores (they are
created in `onupgradeneeded`). -/
def getFromDbOwnJob (s : MState) (key : String) : Option JobInfo :=
  if s.dbInit then lookupA s.own.jobCache key else none

/-- `getFromDb(this.db, executionCache, key)`. -/
def getFromDbOwnExec (s : MState) (key : String) : Option CacheEntry :=
  if s.dbInit then lookupA s.own.executionCache key else none

/-- `getFromDb(this.roiDb, jobCache, key)`: returns `null` without touching
the database when the connection is absent, when the peer-absent flag is
set (the explicit guard), or when the store does not exist; otherwise opens
one read-only transaction on the peer database. -/
def getFromDbRoiJob (s : MState) (ε : Env) (key : String) : Option JobInfo × MState :=
  if ¬s.roiConn then (none, s)
  else if ε.peerAbsent then (none, s)
  else
    match s.peer with
    | none => (none, s)
    | some pdb =>
      if pdb.hasStores then (lookupA pdb.jobCache key, { s with peerTx := s.peerTx + 1 })
      else (none, s)

/-- `getFromDb(this.roiDb, executionCache, key)`. -/
def getFromDbRoiExec (s : MState) (ε : Env) (key : String) : Option CacheEntry × MState :=
  if ¬s.roiConn then (none, s)
  else if ε.peerAbsent then (none, s)
  else
    match s.peer with
    | none => (none, s)
    | some pdb =>
      if pdb.hasStores then (lookupA pdb.executionCache key, { s with peerTx := s.peerTx + 1 })
      else (none, s)

/-- `getAllEntriesFromDb(this.roiDb, jobCache)`, with the same guards as
`getFromDb`. -/
def getAllRoiJob (s : MState) (ε : Env) : List JobInfo × MState :=
  if ¬s.roiConn then ([], s)
  else if ε.peerAbsent then ([], s)
  else
    match s.peer with
    | none => ([], s)
    | some pdb =>
      if pdb.hasStores then (pdb.jobCache.map (·.2), { s with peerTx := s.peerTx + 1 })
      else ([], s)

/-- `set(jobCache, value)`: a read-write transaction on the own database
only (`const { db } = await this.ensureDbConnection()`); the peer database
is never part of it.  (The throw on a missing own connection is modelled
as a no-op: every modelled call site runs after `ensureDbConnection`.) -/
def setOwnJob (s : MState) (v : JobInfo) : MState :=
  if s.dbInit then { s with own := { s.own with jobCache := putA s.own.jobCache v.id v } }
  else s

/-- `set(executionCache, value)`, own database only. -/
def setOwnExec (s : MState) (v : CacheEntry) : MState :=
  if s.dbInit then
    { s with own := { s.own with executionCache := putA s.own.executionCache v.id v } }
  else s

/-- `this.processedJobRegistry.set(jobId, value)`. -/
def registrySet (s : MState) (jobId : String) (v : RegEntry) : MState :=
  { s with registry := putA s.registry jobId v }

/-- `restoreJobRegistry()`: restore the in-memory registry from the own
`jobCache` store (via the dual-database `getAllEntries`), then scan the
peer `jobCache`, copying its rows into the registry and the own store.
`restoreExecutionRegistry` only lists own `executionCache` keys (it never
touches the peer store) and changes no state, so it is not modelled.
The re-entrant `ensureDbConnection` call inside `getAllEntries` is
modelled as returning the connections already held. -/
def restoreJobRegistry (s : MState) (ε : Env) : MState :=
  if ¬s.dbInit then s
  else
    let sel :=
      let r := s.own.jobCache.map (·.2)
      if r ≠ [] then (r, s)
      else if s.roiConn then getAllRoiJob s ε
      else ([], s)
    let allEntries := sel.1
    let s := sel.2
    let s := allEntries.foldl (fun s entry =>
      if entry.id ≠ "" ∧ entry.timestamp ≠ 0 ∧ ε.nowMs - entry.timestamp < cacheTTL then
        registrySet s entry.id ⟨entry.timestamp, entry.hasRoi, entry.assumed, false⟩
      else s) s
    if s.roiConn then
      let roiSel := getAllRoiJob s ε
      let roiEntries := roiSel.1
      let s := roiSel.2
      roiEntries.foldl (fun (s : MState) (entry : JobInfo) =>
        if entry.id ≠ "" ∧ entry.hasRoi.isSome then
          let skip : Bool :=
            match lookupA s.registry entry.id with
            | some ex => decide (ex.timestamp > entry.timestamp)
            | none => false
          if skip = true then s
          else
            let b := entry.hasRoi.getD false
            let ts := if entry.timestamp = 0 then ε.nowMs else entry.timestamp
            let s := registrySet s entry.id ⟨ts, some b, false, true⟩
            setOwnJob s ⟨entry.id, ε.nowMs, some b, false, true⟩
        else s) s
    else s

/-- `initDb()`: open the peer database only when the peer-installed flag
does not read `false` (one counted open attempt; an `indexedDB.open`
without an upgrade handler creates an empty, store-less database when none
exists but never alters existing rows), then open/create the own database
and restore the job registry. -/
def initDb (s : MState) (ε : Env) : MState :=
  if s.dbInit ∧ s.roiConn then s
  else
    let s :=
      if ¬ε.peerAbsent then
        let s := { s with peerOpens := s.peerOpens + 1 }
        if ε.roiOpenOk then
          { s with roiConn := true, peer := some (s.peer.getD emptyDb) }
        else s
      else s
    let s := { s with dbInit := true }
    restoreJobRegistry s ε

/-- `ensureDbConnection()`. -/
def ensureDb (s : MState) (ε : Env) : MState :=
  if s.dbInit ∧ s.roiConn then s
  else if ε.peerAbsent ∧ s.dbInit then s
  else initDb s ε

/-- `get(jobCache, key)`: own database first, then (for non-executionCache
stores) the peer database when a connection is held. -/
def getStoreJob (s : MState) (ε : Env) (key : String) : Option JobInfo × MState :=
  let s := ensureDb s ε
  match getFromDbOwnJob s key with
  | some v => (some v, s)
  | none =>
    if s.roiConn then getFromDbRoiJob s ε key
    else (none, s)

/-- The peer-`jobCache` consultation step of `checkJobHasRoiMetrics`
(lines reading `this.roiDb` after the own job cache came up stale,
assumed, or empty): on a confirmed peer row the status is copied into the
registry and the own store. -/
def roiJobLookupStep (s : MState) (ε : Env) (jobId : String) : Option Bool × MState :=
  if s.roiConn then
    let roi := getFromDbRoiJob s ε jobId
    match roi.1 with
    | some rjc =>
      match rjc.hasRoi with
      | some b =>
        let s := registrySet roi.2 jobId ⟨ε.nowMs, some b, false, false⟩
        let s := setOwnJob s ⟨jobId, ε.nowMs, some b, false, false⟩
        (some b, s)
      | none => (none, roi.2)
    | none => (none, roi.2)
  else (none, s)

/-- The registry/cache classification path of `checkJobHasRoiMetrics`
after the in-memory registry check: own `jobCache` row (via the
dual-database `get`), then the peer `jobCache` row, then the assume-no
default (recorded as `assumed: true` in registry and own store). -/
def checkJobHasRoiMetricsCachePath (s : MState) (ε : Env) (jobId : String) :
    Option Bool × MState :=
  let own := getStoreJob s ε jobId
  let ourJobCache := own.1
  let ownHit : Option Bool :=
    match ourJobCache with
    | some jc =>
      match jc.hasRoi with
      | some b =>
        if ¬jc.assumed ∧ ¬(jc.timestamp = 0 ∨ ε.nowMs - jc.timestamp > freshnessMs)
        then some b else none
      | none => none
    | none => none
  match ownHit with
  | some b => (some b, registrySet own.2 jobId ⟨ε.nowMs, some b, false, false⟩)
  | none =>
    let step := roiJobLookupStep own.2 ε jobId
    match step.1 with
    | some b => (some b, step.2)
    | none =>
      let s := registrySet step.2 jobId ⟨ε.nowMs, some false, true, false⟩
      let s := setOwnJob s ⟨jobId, ε.nowMs, some false, true, false⟩
      (some false, s)

/-- `checkJobHasRoiMetrics(jobId)`: `false` outright when the peer-absent
flag is set; else the in-memory registry when fresh (< 8h; the returned
value may be `null`), else the cache path. -/
def checkJobHasRoiMetrics (s : MState) (ε : Env) (jobId : String) :
    Option Bool × MState :=
  if ε.peerAbsent then (some false, s)
  else
    match lookupA s.registry jobId with
    | some re =>
      if ε.nowMs - re.timestamp < freshnessMs then (re.hasRoi, s)
      else checkJobHasRoiMetricsCachePath s ε jobId
    | none => checkJobHasRoiMetricsCachePath s ε jobId

/-- `get(executionCache, key)`: own database first; on a miss, consult the
peer database only when a connection is held and `checkJobHasRoiMetrics`
returns strictly `true`. -/
def getStoreExec (s : MState) (ε : Env) (key : String) : Option CacheEntry × MState :=
  let s := ensureDb s ε
  match getFromDbOwnExec s key with
  | some v => (some v, s)
  | none =>
    if s.roiConn then
      let chk := checkJobHasRoiMetrics s ε key
      if chk.1 = some true then getFromDbRoiExec chk.2 ε key
      else (none, chk.2)
    else (none, s)

/-- One character of `jobId.replace(/[^a-zA-Z0-9-]/g, "_")`. -/
def sanitizeChar (c : Char) : Char :=
  if c.isAlpha ∨ c.isDigit ∨ c = '-' then c else '_'

/-- The sanitized-key fallback of `getJobExecutions`. -/
def sanitizeKey (k : String) : String := String.mk (k.toList.map sanitizeChar)

/-- The peer-`executionCache` consultation step of `needsCacheRefresh`:
for a truthy classification with the peer installed and connected, a peer
entry fresher than one hour suppresses the refresh (`some false`) — and is
first copied over the own row, with the *peer entry's* date range rather
than a union, when the own row is at least 8 hours old. -/
def needsCacheRefreshRoiStep (s : MState) (ε : Env) (jobId : String) (dataAge : Int)
    (dr : DateRange) (hasRoiMetrics : Option Bool) : Option Bool × MState :=
  if jsTruthy hasRoiMetrics ∧ ¬ε.peerAbsent ∧ s.roiConn then
    let roi := getFromDbRoiExec s ε jobId
    match roi.1 with
    | some rc =>
      if rc.timestamp ≠ 0 then
        if ε.nowMs - rc.timestamp < roiFreshMs then
          let s :=
            if dataAge ≥ freshnessMs then
              setOwnExec roi.2
                ⟨jobId, jobId, rc.data, ε.nowMs,
                 some (rc.dateRange.getD dr),
                 rc.hasRoi.orElse (fun _ => hasRoiMetrics)⟩
            else roi.2
          (some false, s)
        else (none, roi.2)
      else (none, roi.2)
    | none => (none, roi.2)
  else (none, s)

/-- `needsCacheRefresh(cachedData, dateRange)` for an existing entry `cd`
(the `!cachedData` early return is the caller's `some`-match):
classify the job; for a truthy classification with the peer installed and
connected, read the peer `executionCache` row and, when it is fresher than
one hour, report no refresh — first copying it over the own row (with the
*peer entry's* date range, not a union) when the own row is at least 8
hours old.  Otherwise refresh when the own row is at least 8 hours old or
when its range does not cover the requested range. -/
def needsCacheRefresh (s : MState) (ε : Env) (cd : CacheEntry) (dr : DateRange) :
    Bool × MState :=
  let dataAge := ε.nowMs - cd.timestamp
  let jobId := if cd.jobId ≠ "" then cd.jobId else cd.id
  let chk := checkJobHasRoiMetrics s ε jobId
  let hasRoiMetrics := chk.1
  let step := needsCacheRefreshRoiStep chk.2 ε jobId dataAge dr hasRoiMetrics
  match step.1 with
  | some b => (b, step.2)
  | none =>
    if dataAge ≥ freshnessMs then (true, step.2)
    else
      match cd.dateRange with
      | some r =>
        if ¬(r.begin ≤ dr.begin ∧ dr.end_ ≤ r.end_) then (true, step.2)
        else (false, step.2)
      | none => (false, step.2)

/-- The ROI-status resolution step of `cacheExecutions`: the own
`jobCache` row when it carries `hasRoi`, else one more dual-database `get`
of the (identically named) `jobCache` store, else the fallback detected
from the first execution.  Returns
`(existingRoiData, hasRoiMetrics, state)`. -/
def cacheRoiStatusStep (s : MState) (ε : Env) (jobId : String)
    (ourJobCache : Option JobInfo) (fallback : Option Bool) :
    Option Bool × Option Bool × MState :=
  let needLookup : Bool :=
    match ourJobCache with
    | some jc => jc.hasRoi.isNone
    | none => true
  if needLookup then
    let roi := getStoreJob s ε jobId
    match roi.1 with
    | some rjc =>
      match rjc.hasRoi with
      | some b => (some b, some b, roi.2)
      | none => ((none : Option Bool), fallback, roi.2)
    | none => ((none : Option Bool), fallback, roi.2)
  else
    match ourJobCache with
    | some jc => (jc.hasRoi, jc.hasRoi, s)
    | none => ((none : Option Bool), fallback, s)

/-- The merge-base selection step of `cacheExecutions`: for a confirmed
ROI job with a peer connection, a non-empty, newer peer `executionCache`
row replaces the own row as the merge base. -/
def cacheBaseStep (s : MState) (ε : Env) (jobId : String)
    (hasRoiMetrics1 : Option Bool) (existingData0 : Option CacheEntry) :
    Option CacheEntry × MState :=
  if hasRoiMetrics1 = some true ∧ s.roiConn then
    let roi := getFromDbRoiExec s ε jobId
    match roi.1 with
    | some re =>
      if re.data ≠ [] then
        match existingData0 with
        | none => (some re, roi.2)
        | some ed =>
          if re.timestamp ≠ 0 ∧ (ed.timestamp = 0 ∨ re.timestamp > ed.timestamp)
          then (some re, roi.2) else (some ed, roi.2)
      else (existingData0, roi.2)
    | none => (existingData0, roi.2)
  else (existingData0, s)

/-- `cacheExecutions(jobId, executions, timeWindow)`: resolve the ROI
status (first execution's flag, own `jobCache` row, peer `jobCache` row,
detection from the executions), optionally prefer a newer peer
`executionCache` row as merge base for ROI jobs, union the requested date
range with the base entry's range, merge by execution id (fresh wins),
and write the entry, the `jobCache` row and the in-memory registry —
all writes to the own database only.  (The `detectedFrom` bookkeeping
field is not modelled; error paths only log.) -/
def cacheExecutions (s : MState) (ε : Env) (jobId : String)
    (executions : List Execution) (tw : Nat) : MState :=
  let s := if s.dbInit then s else ensureDb s ε
  let hasRoiFromExecution : Option Bool :=
    match executions with
    | e :: _ => e.hasRoi
    | [] => none
  let got := getStoreExec s ε jobId
  let existingData0 := got.1
  let own := getStoreJob got.2 ε jobId
  let roiStatus := cacheRoiStatusStep own.2 ε jobId own.1 hasRoiFromExecution
  let existingRoiData := roiStatus.1
  let hasRoiMetrics1 := roiStatus.2.1
  let base := cacheBaseStep roiStatus.2.2 ε jobId hasRoiMetrics1 existingData0
  let existingData := base.1
  let s := base.2
  let hasRoiMetrics :=
    match hasRoiMetrics1 with
    | some b => some b
    | none =>
      if executions.any (fun e => e.roiHours.isSome) then some true
      else if executions.length ≥ 5 then some false
      else none
  let dr0 : DateRange := ⟨ε.today - (tw : Int), ε.today⟩
  let dr : DateRange :=
    match existingData with
    | some ed =>
      match ed.dateRange with
      | some er => ⟨min dr0.begin er.begin, max dr0.end_ er.end_⟩
      | none => dr0
    | none => dr0
  let dataToStore :=
    match existingData with
    | some ed => mergeById ed.data executions
    | none => executions
  let s := setOwnExec s ⟨jobId, jobId, dataToStore, ε.nowMs, some dr, hasRoiMetrics⟩
  let jobHasRoi : Option Bool :=
    match existingRoiData with
    | some b => some b
    | none => hasRoiMetrics
  let s := setOwnJob s ⟨jobId, ε.nowMs, jobHasRoi, false, false⟩
  registrySet s jobId ⟨ε.nowMs, jobHasRoi, false, false⟩

/-- The sequential data path of a worker fetch
(`fetchExecutionsWithWorker` → `_doFetchExecutionsWithWorker`): the
pre-request cache check runs `get(executionCache, jobId)` but its hit
branch tests `!this.needsCacheRefresh(...)` on the *promise* returned by
the async `needsCacheRefresh`, which is always truthy, so the branch is
never taken; the worker then resolves with `ε.workerResult`, which
`handleWorkerMessage` caches on receipt and `_doFetchExecutionsWithWorker`
caches again explicitly.  (Promise identity and the
`fetchOperationsInProgress` coalescing map are modelled separately for the
coalescing claim; worker initialization performs no database work and is
assumed to succeed.) -/
def fetchExecutionsWithWorker (s : MState) (ε : Env) (jobId : String) (tw : Nat) :
    List Execution × MState :=
  let pre := getStoreExec s ε jobId
  let executions := ε.workerResult
  let s := cacheExecutions pre.2 ε jobId executions tw
  let s := cacheExecutions s ε jobId executions tw
  (executions, s)

/-- The peer-copy fallback of `getJobExecutions` when neither the raw nor
the sanitized key hit the own cache and the job is classified truthy: one
more dual-database `get` of the (identically named) `executionCache`
store; a hit is copied into the own store. -/
def roiCopyStep (s : MState) (ε : Env) (jobId : String)
    (hasRoiMetrics : Option Bool) (dr : DateRange) : Option CacheEntry × MState :=
  let roi := getStoreExec s ε jobId
  match roi.1 with
  | some cd =>
    let copied : CacheEntry :=
      ⟨jobId, jobId, cd.data,
       (if cd.timestamp = 0 then ε.nowMs else cd.timestamp),
       some (cd.dateRange.getD dr),
       cd.hasRoi.orElse (fun _ => hasRoiMetrics)⟩
    (some cd, setOwnExec roi.2 copied)
  | none => (none, roi.2)

/-- The refresh block of `getJobExecutions` (textually duplicated in the
source for the ROI and non-ROI paths): fetch via the worker; when the
fresh list is non-empty, merge it over the cached records, persist, and
return the (optionally date-filtered) merge; when it is empty, resolve
with the previously cached records. -/
def refreshViaWorker (s : MState) (ε : Env) (jobId : String) (tw : Nat)
    (cached : List Execution) : List Execution × MState :=
  let fetched := fetchExecutionsWithWorker s ε jobId tw
  if fetched.1 ≠ [] then
    let merged := mergeById cached fetched.1
    let s := cacheExecutions fetched.2 ε jobId merged tw
    ((if 0 < tw then filterExecutionsByDate merged (ε.today - (tw : Int))
      else merged), s)
  else (cached, fetched.2)

/-- `getJobExecutions(jobId, timeWindow)`: classify the job, read the
cached entry (own key, sanitized key, then — for ROI jobs — the peer copy
path), and serve from cache when fresh and covering, otherwise fetch via
the worker and merge.  `synchronizeTimeWindowWithRoi` touches only
localStorage and is not modelled; error fallbacks that re-enter the worker
are not modelled (no exceptions in the model). -/
def getJobExecutions (s : MState) (ε : Env) (jobId : String) (tw : Nat) :
    List Execution × MState :=
  let s := ensureDb s ε
  let chk := checkJobHasRoiMetrics s ε jobId
  let hasRoiMetrics := chk.1
  let dr : DateRange := ⟨ε.today - (tw : Int), ε.today⟩
  let got0 := getStoreExec chk.2 ε jobId
  let got1 :=
    match got0.1 with
    | some cd => (some cd, got0.2)
    | none =>
      if sanitizeKey jobId ≠ jobId then getStoreExec got0.2 ε (sanitizeKey jobId)
      else (none, got0.2)
  let got2 :=
    match got1.1 with
    | some cd => (some cd, got1.2)
    | none =>
      if jsTruthy hasRoiMetrics then roiCopyStep got1.2 ε jobId hasRoiMetrics dr
      else (none, got1.2)
  let cachedData := got2.1
  let s := got2.2
  if ¬jsTruthy hasRoiMetrics then
    match cachedData with
    | some cd =>
      let dataAge := ε.nowMs - cd.timestamp
      let freshHit : Bool :=
        if dataAge < cacheTTL then
          let rangeMiss : Bool :=
            match cd.dateRange with
            | some r => decide (¬(r.begin ≤ dr.begin ∧ dr.end_ ≤ r.end_))
            | none => false
          let ageMiss : Bool := decide (dataAge ≥ freshnessMs)
          ¬(rangeMiss ∨ ageMiss)
        else false
      if freshHit then
        ((if 0 < tw then filterExecutionsByDate cd.data (ε.today - (tw : Int))
          else cd.data), s)
      else refreshViaWorker s ε jobId tw cd.data
    | none => fetchExecutionsWithWorker s ε jobId tw
  else
    match cachedData with
    | some cd =>
      let dataAge := ε.nowMs - cd.timestamp
      if dataAge < cacheTTL then
        let chk2 := needsCacheRefresh s ε cd dr
        if ¬chk2.1 then
          ((if 0 < tw then filterExecutionsByDate cd.data (ε.today - (tw : Int))
            else cd.data), chk2.2)
        else refreshViaWorker chk2.2 ε jobId tw cd.data
      else refreshViaWorker s ε jobId tw cd.data
    | none => fetchExecutionsWithWorker s ε jobId tw

/-! ### Worker-side models: ConcurrencyPool, fetchExecutions, coalescing -/

/-- `MAX_CONCURRENT_REQUESTS` of jobMetricsWorker.js. -/
def MAX_CONCURRENT_REQUESTS : Nat := 10

/-- State of a `ConcurrencyPool`: the tasks currently running (in start
order), the FIFO queue of waiting tasks, and the order in which tasks
were started (instrumentation for the FIFO property).  Tasks are
identified by naturals. -/
structure PoolState where
  maxConcurrent : Nat
  running : List Nat
  queue : List Nat
  started : List Nat
  deriving Repr, DecidableEq

/-- A fresh pool (`new ConcurrencyPool(n)`). -/
def poolInit (n : Nat) : PoolState := ⟨n, [], [], []⟩

/-- Events observable at the pool boundary: `submit t` is `pool.add(fn)`;
`complete t ok` is task `t`'s body settling (`ok` records fulfilment vs
throw — the transition is identical for both because the bookkeeping and
the dequeue run in the `finally` block of `_run`). -/
inductive PoolEvent where
  | submit (t : Nat)
  | complete (t : Nat) (ok : Bool)
  deriving Repr, DecidableEq

/-- One transition of the pool, from `add` / `_run`:
a submission runs immediately when `running < maxConcurrent`, otherwise it
is pushed at the back of the queue; a completion decrements the running
count (in `finally`, hence also on throw) and, when the queue is
non-empty, shifts its front task and starts it in the same tick. -/
def poolStep (s : PoolState) (e : PoolEvent) : PoolState :=
  match e with
  | .submit t =>
    if s.running.length < s.maxConcurrent then
      { s with running := s.running ++ [t], started := s.started ++ [t] }
    else
      { s with queue := s.queue ++ [t] }
  | .complete t _ =>
    if t ∈ s.running then
      let r := s.running.erase t
      match s.queue with
      | [] => { s with running := r }
      | q :: qs => { s with running := r ++ [q], queue := qs, started := s.started ++ [q] }
    else s

/-- Run the pool over a sequence of events. -/
def poolRun (s : PoolState) (es : List PoolEvent) : PoolState := es.foldl poolStep s

/-- The tasks submitted by an event sequence, in submission order. -/
def submitsOf (es : List PoolEvent) : List Nat :=
  es.filterMap (fun e => match e with | .submit t => some t | .complete _ _ => none)

/-- `MAX_PER_PAGE` of `fetchExecutions`. -/
def MAX_PER_PAGE : Nat := 500

/-- `MAX_RETRIES` of `fetchExecutions`. -/
def MAX_RETRIES : Nat := 3

/-- Outcome of one `fetch` of an executions page: a parsed page, or any
thrown error (non-ok HTTP status, network failure, JSON failure). -/
inductive PageResult where
  | ok (page : List Execution)
  | err
  deriving Repr, DecidableEq

/-- The `while (hasMore)` loop of `fetchExecutions(jobId, dateRange)` in
jobMetricsWorker.js, driven by an oracle giving the outcome of each
successive `fetch` call.  State: current `offset`, `retryCount`,
accumulated `allExecutions`, and the list of `setTimeout` waits performed
so far (in ms).  A successful page is appended and ends the loop when
shorter than `MAX_PER_PAGE` (resetting `retryCount` otherwise); a failure
increments `retryCount`, gives up (returning the accumulation) once it
reaches `MAX_RETRIES`, and otherwise waits `500 * retryCount` and retries
the same offset.  An exhausted oracle ends the run (modelling boundary:
the theorems always supply enough outcomes). -/
def fetchExecutionsLoop : List PageResult → Nat → Nat → List Execution → List Nat →
    List Execution × List Nat
  | [], _, _, acc, waits => (acc, waits)
  | .ok page :: rest, offset, _, acc, waits =>
    let acc := acc ++ page
    if page.length < MAX_PER_PAGE then (acc, waits)
    else fetchExecutionsLoop rest (offset + MAX_PER_PAGE) 0 acc waits
  | .err :: rest, offset, retryCount, acc, waits =>
    let rc := retryCount + 1
    if MAX_RETRIES ≤ rc then (acc, waits)
    else fetchExecutionsLoop rest offset rc acc (waits ++ [500 * rc])

/-- `fetchExecutions` entry point: offset 0, no retries yet, nothing
accumulated.  It always returns normally (the `catch` swallows every page
error); the returned executions are whatever was accumulated. -/
def fetchExecutionsWorker (oracle : List PageResult) : List Execution × List Nat :=
  fetchExecutionsLoop oracle 0 0 [] []

/-- Decimal digit character (the characters `String(n)` is made of). -/
def decimalChar (d : Nat) : Char :=
  match d with
  | 0 => '0' | 1 => '1' | 2 => '2' | 3 => '3' | 4 => '4'
  | 5 => '5' | 6 => '6' | 7 => '7' | 8 => '8' | _ => '9'

/-- JS number-to-string for the naturals used as `timeWindow` values
(template-literal interpolation `${timeWindow}`). -/
def natStr (n : Nat) : String :=
  if n = 0 then "0"
  else String.mk (((Nat.digits 10 n).reverse).map decimalChar)

/-- The in-progress dedup key of `fetchExecutionsWithWorker`:
`worker_${jobId}_${timeWindow}`. -/
def fetchKey (jobId : String) (tw : Nat) : String :=
  "worker_" ++ jobId ++ "_" ++ natStr tw

/-- Promise-level view of `fetchExecutionsWithWorker`:
`fetchOperationsInProgress` maps dedup keys to in-flight promises
(identified by naturals), `workerRequests` records each worker request
actually issued, `nextPromise` supplies fresh promise identities. -/
structure CoalesceState where
  inProgress : List (String × Nat)
  workerRequests : List (String × Nat)
  nextPromise : Nat
  deriving Repr, DecidableEq

/-- The coalescing logic of `fetchExecutionsWithWorker(jobId, timeWindow)`:
when a fetch for the same key is already in flight, return that promise
and do nothing; otherwise create a fresh promise, record it in the
in-progress map and issue one worker request. -/
def fetchWithWorkerCoalesced (s : CoalesceState) (jobId : String) (tw : Nat) :
    Nat × CoalesceState :=
  match lookupA s.inProgress (fetchKey jobId tw) with
  | some p => (p, s)
  | none =>
    let p := s.nextPromise
    (p, { inProgress := putA s.inProgress (fetchKey jobId tw) p,
          workerRequests := s.workerRequests ++ [(fetchKey jobId tw, p)],
          nextPromise := p + 1 })

/-- The date range written by a merge with an existing entry: the union of
the requested range with the entry's range, or the requested range when
the entry has none. -/
def mergedRange (edr : Option DateRange) (dr0 : DateRange) : DateRange :=
  match edr with
  | some er => ⟨min dr0.begin er.begin, max dr0.end_ er.end_⟩
  | none => dr0

/-! ### Refresh sequences and the requested-range union (C2) -/

/-- One modelled refresh of a job's cache entry through `cacheExecutions`:
the environment of the call (its clock and calendar day), the fetched
executions and the requested time window. -/
structure RefreshReq where
  env : Env
  xs : List Execution
  tw : Nat

/-- The date range a refresh with time window `tw` requests
(`dateRange = { begin: today - tw days, end: today }`). -/
def reqRange (ε : Env) (tw : Nat) : DateRange := ⟨ε.today - (tw : Int), ε.today⟩

/-- A sequence of cache refreshes for job `j` through `cacheExecutions`. -/
def runRefreshes (s : MState) (j : String) (rs : List RefreshReq) : MState :=
  rs.foldl (fun s r => cacheExecutions s r.env j r.xs r.tw) s

/-- The outer bounds of the union of `dr` with all the ranges the
requests of `rs` ask for. -/
def foldRange (rs : List RefreshReq) (dr : DateRange) : DateRange :=
  rs.foldl (fun acc r =>
    ⟨min (reqRange r.env r.tw).begin acc.begin,
     max (reqRange r.env r.tw).end_ acc.end_⟩) dr

/-- Shrink scenario, own entry: covers days −30..0, written 10 hours ago
(stale for the 8-hour freshness threshold, inside the 24-hour TTL). -/
def shrinkOwnEntry : CacheEntry :=
  ⟨"jobR", "jobR", [], 64000000, some ⟨-30, 0⟩, some true⟩

/-- Shrink scenario, peer entry: covers only days −5..0, written 30
minutes ago (inside the 1-hour peer freshness window). -/
def shrinkPeerEntry : CacheEntry :=
  ⟨"jobR", "jobR", [], 98200000, some ⟨-5, 0⟩, some true⟩

/-- Shrink scenario: both databases connected, the job registered as an
ROI job with a fresh registry row. -/
def shrinkState : MState :=
  ⟨⟨true, [], [("jobR", shrinkOwnEntry)]⟩,
   some ⟨true, [], [("jobR", shrinkPeerEntry)]⟩,
   true, true, [("jobR", ⟨99000000, some true, false, false⟩)], 0, 0, 0⟩

/-- Shrink scenario environment: peer installed, clock at 100000000 ms. -/
def shrinkEnv : Env := ⟨false, true, 100000000, 0, []⟩

/-! ### Association-list (JS Map / IndexedDB store) lemmas -/

theorem mem_keysA_iff_any {m : List (String × α)} {k : String} :
    k ∈ keysA m ↔ m.any (fun p => p.1 = k) = true := by
  constructor
  · intro h
    rw [List.any_eq_true]
    rcases List.mem_map.mp h with ⟨p, hp, rfl⟩
    exact ⟨p, hp, by simp⟩
  · intro h
    rcases List.any_eq_true.mp h with ⟨p, hp, hpk⟩
    exact List.mem_map.mpr ⟨p, hp, by simpa using hpk⟩

theorem lookupA_nil (k : String) : lookupA ([] : List (String × α)) k = none := rfl

theorem lookupA_cons (p : String × α) (m : List (String × α)) (k : String) :
    lookupA (p :: m) k = if p.1 = k then some p.2 else lookupA m k := by
  by_cases h : p.1 = k <;> simp [lookupA, List.find?_cons, h]

theorem lookupA_append (m₁ m₂ : List (String × α)) (k : String) :
    lookupA (m₁ ++ m₂) k = (lookupA m₁ k).orElse (fun _ => lookupA m₂ k) := by
  induction m₁ with
  | nil => simp [lookupA]
  | cons p t ih =>
    rw [List.cons_append, lookupA_cons, lookupA_cons]
    by_cases h : p.1 = k <;> simp [h, ih]

theorem lookupA_eq_none_of_not_mem {m : List (String × α)} {k : String}
    (h : k ∉ keysA m) : lookupA m k = none := by
  induction m with
  | nil => rfl
  | cons p t ih =>
    rw [lookupA_cons]
    have hpk : p.1 ≠ k := by
      intro hc; exact h (by simp [keysA, hc])
    simp only [hpk, if_false]
    exact ih (fun hc => h (by simp [keysA] at hc ⊢; exact Or.inr hc))

theorem lookupA_map_replace_self (m : List (String × α)) (k : String) (v : α)
    (h : k ∈ keysA m) :
    lookupA (m.map (fun p => if p.1 = k then (k, v) else p)) k = some v := by
  induction m with
  | nil => simp [keysA] at h
  | cons p t ih =>
    simp only [List.map_cons]
    by_cases hp : p.1 = k
    · rw [if_pos hp, lookupA_cons]
      simp
    · rw [if_neg hp, lookupA_cons, if_neg hp]
      apply ih
      rcases List.mem_map.mp h with ⟨q, hq, hqk⟩
      rcases List.mem_cons.mp hq with rfl | hq'
      · exact absurd hqk hp
      · exact List.mem_map.mpr ⟨q, hq', hqk⟩

theorem lookupA_map_replace_ne (m : List (String × α)) (k k' : String) (v : α)
    (h : k' ≠ k) :
    lookupA (m.map (fun p => if p.1 = k then (k, v) else p)) k' = lookupA m k' := by
  induction m with
  | nil => rfl
  | cons p t ih =>
    simp only [List.map_cons]
    by_cases hp : p.1 = k
    · rw [if_pos hp, lookupA_cons, lookupA_cons]
      have h1 : ¬((k, v).1 = k') := fun hc => h hc.symm
      have h2 : ¬(p.1 = k') := by rw [hp]; exact fun hc => h hc.symm
      rw [if_neg h1, if_neg h2]
      exact ih
    · rw [if_neg hp, lookupA_cons, lookupA_cons]
      by_cases hp' : p.1 = k'
      · rw [if_pos hp', if_pos hp']
      · rw [if_neg hp', if_neg hp']
        exact ih

theorem lookupA_putA_self (m : List (String × α)) (k : String) (v : α) :
    lookupA (putA m k v) k = some v := by
  unfold putA
  split
  · rename_i hany
    exact lookupA_map_replace_self m k v (mem_keysA_iff_any.mpr hany)
  · rw [lookupA_append]
    rename_i hany
    have hnm : k ∉ keysA m := fun hc => hany (mem_keysA_iff_any.mp hc)
    rw [lookupA_eq_none_of_not_mem hnm]
    simp [lookupA]

theorem lookupA_putA_ne (m : List (String × α)) (k k' : String) (v : α)
    (h : k' ≠ k) : lookupA (putA m k v) k' = lookupA m k' := by
  unfold putA
  split
  · exact lookupA_map_replace_ne m k k' v h
  · rw [lookupA_append, lookupA_cons]
    have h1 : ¬(k = k') := fun hc => h hc.symm
    simp only [h1, if_false, lookupA_nil]
    cases hl : lookupA m k' <;> simp [Option.orElse]

theorem keysA_putA_of_mem {m : List (String × α)} {k : String} (v : α)
    (h : k ∈ keysA m) : keysA (putA m k v) = keysA m := by
  unfold putA
  rw [if_pos (mem_keysA_iff_any.mp h)]
  simp only [keysA, List.map_map]
  apply List.map_congr_left
  intro p _
  by_cases hp : p.1 = k <;> simp [hp]

theorem keysA_putA_of_not_mem {m : List (String × α)} {k : String} (v : α)
    (h : k ∉ keysA m) : keysA (putA m k v) = keysA m ++ [k] := by
  unfold putA
  rw [if_neg (fun hc => h (mem_keysA_iff_any.mpr hc))]
  simp [keysA]

theorem nodup_keysA_putA {m : List (String × α)} {k : String} (v : α)
    (h : (keysA m).Nodup) : (keysA (putA m k v)).Nodup := by
  by_cases hk : k ∈ keysA m
  · rw [keysA_putA_of_mem v hk]; exact h
  · rw [keysA_putA_of_not_mem v hk]
    simpa [List.nodup_append] using ⟨h, hk⟩

theorem mem_putA {m : List (String × α)} {k : String} {v : α} {p : String × α}
    (h : p ∈ putA m k v) : (p ∈ m ∧ p.1 ≠ k) ∨ p = (k, v) := by
  unfold putA at h
  split at h
  · rename_i hany
    rw [List.mem_map] at h
    rcases h with ⟨q, hq, hqe⟩
    by_cases hqk : q.1 = k
    · right; rw [← hqe, if_pos hqk]
    · left; rw [← hqe, if_neg hqk]; exact ⟨hq, hqk⟩
  · rename_i hany
    rcases List.mem_append.mp h with h' | h'
    · left
      refine ⟨h', fun hc => ?_⟩
      have hk : k ∈ keysA m := List.mem_map.mpr ⟨p, h', hc⟩
      exact hany (mem_keysA_iff_any.mp hk)
    · right; simpa using h'

theorem mem_keysA_putA {m : List (String × α)} {k k' : String} (v : α) :
    k' ∈ keysA (putA m k v) ↔ k' ∈ keysA m ∨ k' = k := by
  by_cases hk : k ∈ keysA m
  · rw [keysA_putA_of_mem v hk]
    constructor
    · exact Or.inl
    · rintro (h | rfl)
      · exact h
      · exact hk
  · rw [keysA_putA_of_not_mem v hk]
    simp

/-! ### Merge lemmas and the dedup claim -/

theorem insertAll_cons (m : List (String × Execution)) (e : Execution)
    (t : List Execution) : insertAll m (e :: t) = insertAll (putA m e.id e) t := rfl

theorem keysA_insertAll_nodup {m : List (String × Execution)} {xs : List Execution}
    (h : (keysA m).Nodup) : (keysA (insertAll m xs)).Nodup := by
  induction xs generalizing m with
  | nil => exact h
  | cons e t ih => exact ih (nodup_keysA_putA _ h)

theorem mem_keysA_insertAll {m : List (String × Execution)} {xs : List Execution}
    {k : String} :
    k ∈ keysA (insertAll m xs) ↔ k ∈ keysA m ∨ k ∈ xs.map (·.id) := by
  induction xs generalizing m with
  | nil => simp [insertAll]
  | cons e t ih =>
    rw [insertAll_cons, ih, mem_keysA_putA]
    simp only [List.map_cons, List.mem_cons]
    tauto

theorem mem_insertAll {m : List (String × Execution)} {xs : List Execution}
    {p : String × Execution} (h : p ∈ insertAll m xs) :
    (p ∈ m ∧ p.1 ∉ xs.map (·.id)) ∨ (p.2 ∈ xs ∧ p.2.id = p.1) := by
  induction xs generalizing m with
  | nil => simpa [insertAll] using h
  | cons e t ih =>
    rw [insertAll_cons] at h
    rcases ih h with ⟨hm, hnt⟩ | ⟨ht, hid⟩
    · rcases mem_putA hm with ⟨hm', hne⟩ | rfl
      · left
        refine ⟨hm', fun hc => ?_⟩
        simp only [List.map_cons, List.mem_cons] at hc
        rcases hc with hc | hc
        · exact hne hc
        · exact hnt hc
      · right
        exact ⟨List.mem_cons_self _ _, rfl⟩
    · right
      exact ⟨List.mem_cons_of_mem _ ht, hid⟩

theorem id_eq_key_insertAll {m : List (String × Execution)} {xs : List Execution}
    (h : ∀ p ∈ m, (p : String × Execution).2.id = p.1) :
    ∀ p ∈ insertAll m xs, (p : String × Execution).2.id = p.1 := by
  induction xs generalizing m with
  | nil => exact h
  | cons e t ih =>
    rw [insertAll_cons]
    apply ih
    intro p hp
    rcases mem_putA hp with ⟨hm, _⟩ | rfl
    · exact h p hm
    · rfl

theorem map_id_mergeById (cached fresh : List Execution) :
    (mergeById cached fresh).map (·.id) = keysA (insertAll (insertAll [] cached) fresh) := by
  have hinv : ∀ p ∈ insertAll (insertAll [] cached) fresh,
      (p : String × Execution).2.id = p.1 :=
    id_eq_key_insertAll (id_eq_key_insertAll (by intro p hp; simp at hp))
  unfold mergeById keysA
  rw [List.map_map]
  exact List.map_congr_left hinv

/-- C1: the merged execution set built by `getJobExecutions` and persisted
by `cacheExecutions` — cached executions inserted into a `Map` keyed by
execution id first, freshly fetched ones second — has exactly one record
per identifier occurring in either input, and any merged record whose
identifier occurs among the fresh executions is a fresh record (the fresh
copy wins on conflict). -/
theorem mergeById_dedup_fresh_wins (cached fresh : List Execution) :
    ((mergeById cached fresh).map (·.id)).Nodup
    ∧ (∀ i, i ∈ (cached ++ fresh).map (·.id) →
        ((mergeById cached fresh).map (·.id)).count i = 1)
    ∧ (∀ e ∈ mergeById cached fresh, e.id ∈ fresh.map (·.id) → e ∈ fresh) := by
  have hnodup : ((mergeById cached fresh).map (·.id)).Nodup := by
    rw [map_id_mergeById]
    exact keysA_insertAll_nodup (keysA_insertAll_nodup (by simp [keysA]))
  refine ⟨hnodup, ?_, ?_⟩
  · intro i hi
    apply List.count_eq_one_of_mem hnodup
    rw [map_id_mergeById, mem_keysA_insertAll, mem_keysA_insertAll]
    simp only [List.map_append, List.mem_append] at hi
    rcases hi with hi | hi
    · exact Or.inl (Or.inr hi)
    · exact Or.inr hi
  · intro e he hef
    rcases List.mem_map.mp he with ⟨p, hp, rfl⟩
    rcases mem_insertAll hp with ⟨hm, hnf⟩ | ⟨hf, _⟩
    · exfalso
      apply hnf
      have : p.2.id = p.1 :=
        id_eq_key_insertAll (id_eq_key_insertAll (by intro q hq; simp at hq)) p hp
      rwa [this] at hef
    · exact hf

/-- C1 witness: a concrete overlap, with the theorem applied directly. -/
theorem mergeById_dedup_fresh_wins_witness :
    (("a" : String) ∈ ([⟨"a", none, "succeeded", none, none, none⟩,
        ⟨"b", none, "failed", none, none, none⟩] ++
        [⟨"a", some 1, "succeeded", none, none, none⟩] : List Execution).map (·.id))
    ∧ ((mergeById [⟨"a", none, "succeeded", none, none, none⟩,
        ⟨"b", none, "failed", none, none, none⟩]
        [⟨"a", some 1, "succeeded", none, none, none⟩]).map (·.id)).count "a" = 1 := by
  refine ⟨by decide, ?_⟩
  exact (mergeById_dedup_fresh_wins
    [⟨"a", none, "succeeded", none, none, none⟩, ⟨"b", none, "failed", none, none, none⟩]
    [⟨"a", some 1, "succeeded", none, none, none⟩]).2.1 "a" (by decide)

/-! ### Date filtering (C5) -/

theorem startsOnOrAfter_iff (e : Execution) (cutoff : Int) :
    startsOnOrAfter e cutoff = true ↔ ∃ d, e.day = some d ∧ cutoff ≤ d := by
  unfold startsOnOrAfter
  cases h : e.day <;> simp [h]

/-- C5: `filterExecutionsByDate` returns exactly the executions of its
input whose start day is on or after the cutoff day `D`: membership in the
result is equivalent to membership in the input together with a start day
`≥ D` (records without a parseable start day give an invalid moment, for
which `isSameOrAfter` is false, and are excluded). -/
theorem filterExecutionsByDate_mem (xs : List Execution) (cutoff : Int) (e : Execution) :
    e ∈ filterExecutionsByDate xs cutoff ↔
      e ∈ xs ∧ ∃ d, e.day = some d ∧ cutoff ≤ d := by
  unfold filterExecutionsByDate
  split
  · rename_i h; subst h; simp
  · rw [List.mem_filter, startsOnOrAfter_iff]

/-! ### Worker metric counters (C9) -/

theorem processStep_successful (s : Summary) (e : Execution) :
    (processStep s e).successful =
      if e.status = "succeeded" then s.successful + 1 else s.successful := by
  unfold processStep
  by_cases h : e.status = "succeeded" <;>
    cases hr : e.roiHours.isSome <;>
    cases hd : e.duration <;>
    simp [h, hr, hd] <;>
    split <;> simp

theorem processStep_failed (s : Summary) (e : Execution) :
    (processStep s e).failed =
      if e.status = "succeeded" then s.failed else s.failed + 1 := by
  unfold processStep
  by_cases h : e.status = "succeeded" <;>
    cases hr : e.roiHours.isSome <;>
    cases hd : e.duration <;>
    simp [h, hr, hd] <;>
    split <;> simp

theorem foldl_processStep_successful (xs : List Execution) :
    ∀ s : Summary, (xs.foldl processStep s).successful =
      s.successful + xs.countP (fun e => decide (e.status = "succeeded")) := by
  induction xs with
  | nil => intro s; simp
  | cons e t ih =>
    intro s
    rw [List.foldl_cons, ih, processStep_successful, List.countP_cons]
    by_cases h : e.status = "succeeded" <;> (simp [h]; try omega)

theorem foldl_processStep_failed (xs : List Execution) :
    ∀ s : Summary, (xs.foldl processStep s).failed =
      s.failed + xs.countP (fun e => !decide (e.status = "succeeded")) := by
  induction xs with
  | nil => intro s; simp
  | cons e t ih =>
    intro s
    rw [List.foldl_cons, ih, processStep_failed, List.countP_cons]
    by_cases h : e.status = "succeeded" <;> (simp [h]; try omega)

/-- C9: `processExecutionData` counts an execution as successful exactly
when its status string equals "succeeded" and counts every other execution
(aborted, failed, anything else) as failed, so
`summary.successful + summary.failed = summary.total` always holds and the
total is the input length. -/
theorem processExecutionData_summary (xs : List Execution) :
    (processExecutionData xs).successful =
      xs.countP (fun e => decide (e.status = "succeeded"))
    ∧ (processExecutionData xs).failed =
      xs.countP (fun e => !decide (e.status = "succeeded"))
    ∧ (processExecutionData xs).total = xs.length
    ∧ (processExecutionData xs).successful + (processExecutionData xs).failed
        = (processExecutionData xs).total := by
  have hs : (processExecutionData xs).successful =
      xs.countP (fun e => decide (e.status = "succeeded")) := by
    unfold processExecutionData
    simp [foldl_processStep_successful]
  have hf : (processExecutionData xs).failed =
      xs.countP (fun e => !decide (e.status = "succeeded")) := by
    unfold processExecutionData
    simp [foldl_processStep_failed]
  have ht : (processExecutionData xs).total = xs.length := by
    unfold processExecutionData
    simp
  refine ⟨hs, hf, ht, ?_⟩
  rw [hs, hf, ht]
  have h := (List.length_eq_countP_add_countP
    (fun e => decide (e.status = "succeeded")) xs).symm
  simpa using h

/-! ### Concurrency pool (C6) -/

/-- Reachability invariant of the pool: the running count never exceeds
the limit, and the queue is only ever non-empty while the pool is
saturated. -/
def PoolInv (s : PoolState) : Prop :=
  s.running.length ≤ s.maxConcurrent ∧ (s.queue ≠ [] → s.running.length = s.maxConcurrent)

theorem poolStep_maxConcurrent (s : PoolState) (e : PoolEvent) :
    (poolStep s e).maxConcurrent = s.maxConcurrent := by
  cases e with
  | submit t =>
    by_cases h : s.running.length < s.maxConcurrent <;> simp [poolStep, h]
  | complete t ok =>
    by_cases h : t ∈ s.running
    · cases hq : s.queue <;> simp [poolStep, h, hq]
    · simp [poolStep, h]

theorem poolStep_inv {s : PoolState} (e : PoolEvent) (h : PoolInv s) :
    PoolInv (poolStep s e) := by
  obtain ⟨hlen, hfull⟩ := h
  cases e with
  | submit t =>
    by_cases hlt : s.running.length < s.maxConcurrent
    · have hq : s.queue = [] := by
        by_contra hq
        exact absurd (hfull hq) (Nat.ne_of_lt hlt)
      simp only [poolStep, if_pos hlt]
      constructor
      · simpa using hlt
      · intro hq'
        simp [hq] at hq'
    · simp only [poolStep, if_neg hlt]
      exact ⟨hlen, fun _ => Nat.le_antisymm hlen (Nat.le_of_not_lt hlt)⟩
  | complete t ok =>
    by_cases hm : t ∈ s.running
    · have herase : (s.running.erase t).length + 1 = s.running.length :=
        List.length_erase_add_one hm
      cases hq : s.queue with
      | nil =>
        simp only [poolStep, if_pos hm, hq]
        constructor
        · show (s.running.erase t).length ≤ s.maxConcurrent
          omega
        · intro h
          simp at h
      | cons q qs =>
        have hsat := hfull (by simp [hq])
        simp only [poolStep, if_pos hm, hq]
        constructor
        · simp only [List.length_append, List.length_cons, List.length_nil]
          omega
        · intro _
          simp only [List.length_append, List.length_cons, List.length_nil]
          omega
    · simp only [poolStep, if_neg hm]
      exact ⟨hlen, hfull⟩

theorem poolStep_order {s : PoolState} (e : PoolEvent) (h : PoolInv s) :
    (poolStep s e).started ++ (poolStep s e).queue =
      (s.started ++ s.queue) ++ submitsOf [e] := by
  obtain ⟨hlen, hfull⟩ := h
  cases e with
  | submit t =>
    by_cases hlt : s.running.length < s.maxConcurrent
    · have hq : s.queue = [] := by
        by_contra hq
        exact absurd (hfull hq) (Nat.ne_of_lt hlt)
      simp [poolStep, hlt, hq, submitsOf]
    · simp [poolStep, hlt, submitsOf]
  | complete t ok =>
    by_cases hm : t ∈ s.running
    · cases hq : s.queue <;> simp [poolStep, hm, hq, submitsOf]
    · simp [poolStep, hm, submitsOf]

theorem poolRun_inv_order (es : List PoolEvent) :
    ∀ s : PoolState, PoolInv s →
      PoolInv (poolRun s es)
      ∧ (poolRun s es).started ++ (poolRun s es).queue =
          (s.started ++ s.queue) ++ submitsOf es := by
  induction es with
  | nil => intro s h; exact ⟨h, by simp [poolRun, submitsOf]⟩
  | cons e t ih =>
    intro s h
    have hstep := poolStep_inv e h
    have horder := poolStep_order e h
    have hrun : poolRun s (e :: t) = poolRun (poolStep s e) t := by
      simp [poolRun]
    rw [hrun]
    refine ⟨(ih _ hstep).1, ?_⟩
    rw [(ih _ hstep).2, horder]
    have hsub : submitsOf (e :: t) = submitsOf [e] ++ submitsOf t := by
      cases e <;> simp [submitsOf]
    rw [hsub, List.append_assoc]

theorem poolRun_maxConcurrent (es : List PoolEvent) :
    ∀ s : PoolState, (poolRun s es).maxConcurrent = s.maxConcurrent := by
  induction es with
  | nil => intro s; rfl
  | cons e t ih =>
    intro s
    have hrun : poolRun s (e :: t) = poolRun (poolStep s e) t := by simp [poolRun]
    rw [hrun, ih, poolStep_maxConcurrent]

theorem poolRun_append (s : PoolState) (a b : List PoolEvent) :
    poolRun s (a ++ b) = poolRun (poolRun s a) b := by
  simp [poolRun, List.foldl_append]

theorem poolRun_submits_not_full (ts : List Nat) :
    ∀ s : PoolState, s.queue = [] →
      s.running.length + ts.length ≤ s.maxConcurrent →
      poolRun s (ts.map .submit) =
        { s with running := s.running ++ ts, started := s.started ++ ts } := by
  induction ts with
  | nil => intro s hq hlen; simp [poolRun]
  | cons t ts' ih =>
    intro s hq hlen
    have hlt : s.running.length < s.maxConcurrent := by
      simp only [List.length_cons] at hlen; omega
    have hrun : poolRun s (List.map .submit (t :: ts')) =
        poolRun (poolStep s (.submit t)) (ts'.map .submit) := by
      simp [poolRun]
    rw [hrun]
    have hstep : poolStep s (.submit t) =
        { s with running := s.running ++ [t], started := s.started ++ [t] } := by
      simp [poolStep, hlt]
    rw [hstep]
    have := ih { s with running := s.running ++ [t], started := s.started ++ [t] }
      (by simpa using hq)
      (by simp at hlen ⊢; omega)
    rw [this]
    simp

theorem poolRun_submits_full (ts : List Nat) :
    ∀ s : PoolState, ¬ s.running.length < s.maxConcurrent →
      poolRun s (ts.map .submit) = { s with queue := s.queue ++ ts } := by
  induction ts with
  | nil => intro s hfull; simp [poolRun]
  | cons t ts' ih =>
    intro s hfull
    have hrun : poolRun s (List.map .submit (t :: ts')) =
        poolRun (poolStep s (.submit t)) (ts'.map .submit) := by
      simp [poolRun]
    rw [hrun]
    have hstep : poolStep s (.submit t) = { s with queue := s.queue ++ [t] } := by
      simp [poolStep, hfull]
    rw [hstep]
    have := ih { s with queue := s.queue ++ [t] } (by simpa using hfull)
    rw [this]
    simp

/-- C6: for every event sequence over a fresh `ConcurrencyPool` with limit
`N`, the running count never exceeds `N` (completions decrement it in a
`finally`-equivalent transition, identical for fulfilment and throw), and
at every instant the tasks started so far followed by the queued tasks are
exactly the submitted tasks in submission order (queued tasks start in
FIFO submission order as slots free up).  In particular, submitting
`M ≥ N` blocking tasks `0..M-1` leaves exactly the first `N` running and
the remaining `M − N` queued in submission order. -/
theorem concurrencyPool_bound_fifo (n m : Nat) (es : List PoolEvent) (hnm : n ≤ m) :
    (poolRun (poolInit n) es).running.length ≤ n
    ∧ (poolRun (poolInit n) es).started ++ (poolRun (poolInit n) es).queue = submitsOf es
    ∧ poolRun (poolInit n) ((List.range m).map .submit) =
        ⟨n, List.range n, (List.range m).drop n, List.range n⟩ := by
  have hinv : PoolInv (poolInit n) := by
    constructor
    · simp [poolInit]
    · intro h; simp [poolInit] at h
  obtain ⟨⟨hlen, _⟩, horder⟩ := poolRun_inv_order es (poolInit n) hinv
  refine ⟨?_, ?_, ?_⟩
  · calc (poolRun (poolInit n) es).running.length
        ≤ (poolRun (poolInit n) es).maxConcurrent := hlen
      _ = n := by rw [poolRun_maxConcurrent]; rfl
  · simpa [poolInit] using horder
  · have hsplit : List.range m = (List.range m).take n ++ (List.range m).drop n :=
      (List.take_append_drop n (List.range m)).symm
    have htake : (List.range m).take n = List.range n := by
      rw [List.take_range]
      congr 1
      omega
    have hphase1 : poolRun (poolInit n) ((List.range n).map .submit) =
        ⟨n, List.range n, [], List.range n⟩ := by
      have := poolRun_submits_not_full (List.range n) (poolInit n) rfl
        (by simp [poolInit])
      simpa [poolInit] using this
    have hphase2 : poolRun (⟨n, List.range n, [], List.range n⟩ : PoolState)
        (((List.range m).drop n).map .submit) =
        ⟨n, List.range n, (List.range m).drop n, List.range n⟩ := by
      have := poolRun_submits_full ((List.range m).drop n)
        (⟨n, List.range n, [], List.range n⟩ : PoolState) (by simp)
      simpa using this
    have hmap : (List.range m).map PoolEvent.submit =
        ((List.range m).take n).map .submit ++ ((List.range m).drop n).map .submit := by
      rw [← List.map_append, List.take_append_drop]
    rw [hmap, poolRun_append, htake, hphase1, hphase2]

/-- C6 witness: twelve submissions against the fixed limit of ten. -/
theorem concurrencyPool_bound_fifo_witness :
    (10 : Nat) ≤ 12
    ∧ poolRun (poolInit 10) ((List.range 12).map .submit) =
        ⟨10, List.range 10, (List.range 12).drop 10, List.range 10⟩ := by
  refine ⟨by decide, ?_⟩
  exact (concurrencyPool_bound_fifo 10 12 [] (by decide)).2.2

/-! ### Page-fetch retry behaviour (C7) -/

/-- C7: the worker's `fetchExecutions` gives up on a failing page after
`MAX_RETRIES = 3` consecutive failures — waiting `attempt × 500` ms
between attempts (500 ms, then 1000 ms) — and then returns the executions
accumulated from the pages fetched so far instead of throwing: the result
is independent of any further oracle outcomes, and the entry point returns
the partial accumulation.  A failure followed by a success really is
retried at the same position and resumes normally. -/
theorem fetchExecutions_retry_partial :
    (∀ (rest : List PageResult) (offset : Nat) (acc : List Execution) (waits : List Nat),
      fetchExecutionsLoop (.err :: .err :: .err :: rest) offset 0 acc waits
        = (acc, waits ++ [500, 1000]))
    ∧ (∀ rest : List PageResult,
      fetchExecutionsWorker (.err :: .err :: .err :: rest) = ([], [500, 1000]))
    ∧ (∀ (rest : List PageResult) (page : List Execution) (offset : Nat)
        (acc : List Execution) (waits : List Nat), page.length < MAX_PER_PAGE →
      fetchExecutionsLoop (.err :: .ok page :: rest) offset 0 acc waits
        = (acc ++ page, waits ++ [500])) := by
  have hloop : ∀ (rest : List PageResult) (offset : Nat) (acc : List Execution)
      (waits : List Nat),
      fetchExecutionsLoop (.err :: .err :: .err :: rest) offset 0 acc waits
        = (acc, waits ++ [500, 1000]) := by
    intro rest offset acc waits
    simp [fetchExecutionsLoop, MAX_RETRIES]
  refine ⟨hloop, ?_, ?_⟩
  · intro rest
    unfold fetchExecutionsWorker
    rw [hloop]
    rfl
  · intro rest page offset acc waits h
    simp [fetchExecutionsLoop, MAX_RETRIES, if_pos h]

/-- C7 witness: one failure, then a short (final) page. -/
theorem fetchExecutions_retry_partial_witness :
    (List.length ([] : List Execution) < MAX_PER_PAGE)
    ∧ fetchExecutionsLoop [.err, .ok []] 0 0 [] [] = ([], [500]) := by
  refine ⟨by decide, ?_⟩
  have h := fetchExecutions_retry_partial.2.2 [] [] 0 [] [] (by decide)
  simpa using h

/-! ### Request coalescing (C8) -/

theorem decimalChar_ne_underscore : ∀ d, d < 10 → decimalChar d ≠ '_' := by decide

theorem decimalChar_inj : ∀ d₁, d₁ < 10 → ∀ d₂, d₂ < 10 →
    decimalChar d₁ = decimalChar d₂ → d₁ = d₂ := by decide

theorem toList_mk (l : List Char) : (String.mk l).toList = l := rfl

theorem mk_inj {l₁ l₂ : List Char} (h : String.mk l₁ = String.mk l₂) : l₁ = l₂ := by
  injection h

theorem toList_eq_toList {a b : String} (h : a.toList = b.toList) : a = b := by
  cases a; cases b
  exact congrArg String.mk h

theorem toList_append (a b : String) : (a ++ b).toList = a.toList ++ b.toList := rfl

theorem natStr_toList_no_underscore (n : Nat) :
    ∀ c ∈ (natStr n).toList, c ≠ '_' := by
  unfold natStr
  split
  · intro c hc
    have h0 : ("0" : String).toList = ['0'] := rfl
    rw [h0] at hc
    have hc' : c = '0' := by simpa using hc
    rw [hc']
    decide
  · intro c hc
    rw [toList_mk, List.mem_map] at hc
    rcases hc with ⟨d, hd, rfl⟩
    rw [List.mem_reverse] at hd
    exact decimalChar_ne_underscore d (Nat.digits_lt_base (by omega) hd)

theorem map_decimalChar_inj : ∀ (l₁ l₂ : List Nat), (∀ d ∈ l₁, d < 10) →
    (∀ d ∈ l₂, d < 10) → l₁.map decimalChar = l₂.map decimalChar → l₁ = l₂ := by
  intro l₁
  induction l₁ with
  | nil =>
    intro l₂ _ _ h
    cases l₂ with
    | nil => rfl
    | cons d t => simp at h
  | cons d₁ t₁ ih =>
    intro l₂ h₁ h₂ h
    cases l₂ with
    | nil => simp at h
    | cons d₂ t₂ =>
      simp only [List.map_cons, List.cons.injEq] at h
      have hd : d₁ = d₂ :=
        decimalChar_inj d₁ (h₁ d₁ (List.mem_cons_self _ _))
          d₂ (h₂ d₂ (List.mem_cons_self _ _)) h.1
      have ht : t₁ = t₂ :=
        ih t₂ (fun d hd => h₁ d (List.mem_cons_of_mem _ hd))
          (fun d hd => h₂ d (List.mem_cons_of_mem _ hd)) h.2
      rw [hd, ht]

theorem natStr_inj {a b : Nat} (h : natStr a = natStr b) : a = b := by
  by_cases ha : a = 0 <;> by_cases hb : b = 0
  · rw [ha, hb]
  · exfalso
    rw [ha] at h
    unfold natStr at h
    rw [if_pos rfl, if_neg hb] at h
    have hl := mk_inj h
    have hlen : ((Nat.digits 10 b).reverse.map decimalChar).length = 1 := by
      rw [← hl]; rfl
    simp only [List.length_map, List.length_reverse] at hlen
    rcases List.length_eq_one.mp hlen with ⟨d, hd⟩
    rw [hd] at hl
    have hd10 : d < 10 :=
      Nat.digits_lt_base (by omega) (by rw [hd]; exact List.mem_singleton_self d)
    have hchar : decimalChar d = '0' := by
      have h0 : (("0" : String).data : List Char) = ['0'] := rfl
      rw [h0] at hl
      simpa using hl.symm
    have hd0 : d = 0 := decimalChar_inj d hd10 0 (by omega) (by rw [hchar]; rfl)
    have hb0 : b = 0 := by
      have hof := Nat.ofDigits_digits 10 b
      rw [hd, hd0] at hof
      simpa [Nat.ofDigits] using hof.symm
    exact hb hb0
  · exfalso
    rw [hb] at h
    unfold natStr at h
    rw [if_pos rfl, if_neg ha] at h
    have hl := mk_inj h.symm
    have hlen : ((Nat.digits 10 a).reverse.map decimalChar).length = 1 := by
      rw [← hl]; rfl
    simp only [List.length_map, List.length_reverse] at hlen
    rcases List.length_eq_one.mp hlen with ⟨d, hd⟩
    rw [hd] at hl
    have hd10 : d < 10 :=
      Nat.digits_lt_base (by omega) (by rw [hd]; exact List.mem_singleton_self d)
    have hchar : decimalChar d = '0' := by
      have h0 : (("0" : String).data : List Char) = ['0'] := rfl
      rw [h0] at hl
      simpa using hl.symm
    have hd0 : d = 0 := decimalChar_inj d hd10 0 (by omega) (by rw [hchar]; rfl)
    have ha0 : a = 0 := by
      have hof := Nat.ofDigits_digits 10 a
      rw [hd, hd0] at hof
      simpa [Nat.ofDigits] using hof.symm
    exact ha ha0
  · unfold natStr at h
    rw [if_neg ha, if_neg hb] at h
    have hl := mk_inj h
    have hdig : (Nat.digits 10 a).reverse = (Nat.digits 10 b).reverse :=
      map_decimalChar_inj _ _
        (fun d hd => Nat.digits_lt_base (by omega) (List.mem_reverse.mp hd))
        (fun d hd => Nat.digits_lt_base (by omega) (List.mem_reverse.mp hd)) hl
    have hdig' : Nat.digits 10 a = Nat.digits 10 b :=
      List.reverse_injective hdig
    calc a = Nat.ofDigits 10 (Nat.digits 10 a) := (Nat.ofDigits_digits 10 a).symm
      _ = Nat.ofDigits 10 (Nat.digits 10 b) := by rw [hdig']
      _ = b := Nat.ofDigits_digits 10 b

theorem prefix_underscore_inj : ∀ (x₁ x₂ y₁ y₂ : List Char),
    (∀ c ∈ x₁, c ≠ '_') → (∀ c ∈ x₂, c ≠ '_') →
    x₁ ++ '_' :: y₁ = x₂ ++ '_' :: y₂ → x₁ = x₂ ∧ y₁ = y₂ := by
  intro x₁
  induction x₁ with
  | nil =>
    intro x₂ y₁ y₂ _ h₂ h
    cases x₂ with
    | nil => simpa using h
    | cons c t =>
      exfalso
      simp only [List.nil_append, List.cons_append, List.cons.injEq] at h
      exact h₂ c (List.mem_cons_self _ _) h.1.symm
  | cons c₁ t₁ ih =>
    intro x₂ y₁ y₂ h₁ h₂ h
    cases x₂ with
    | nil =>
      exfalso
      simp only [List.nil_append, List.cons_append, List.cons.injEq] at h
      exact h₁ c₁ (List.mem_cons_self _ _) h.1
    | cons c₂ t₂ =>
      simp only [List.cons_append, List.cons.injEq] at h
      obtain ⟨ht, hy⟩ := ih t₂ y₁ y₂
        (fun c hc => h₁ c (List.mem_cons_of_mem _ hc))
        (fun c hc => h₂ c (List.mem_cons_of_mem _ hc)) h.2
      exact ⟨by rw [h.1, ht], hy⟩

theorem fetchKey_inj {j₁ j₂ : String} {t₁ t₂ : Nat}
    (h : fetchKey j₁ t₁ = fetchKey j₂ t₂) : j₁ = j₂ ∧ t₁ = t₂ := by
  unfold fetchKey at h
  have hl : ("worker_".toList ++ (j₁.toList ++ ('_' :: (natStr t₁).toList)))
      = "worker_".toList ++ (j₂.toList ++ ('_' :: (natStr t₂).toList)) := by
    have := congrArg String.toList h
    simpa [toList_append] using this
  have hl' := List.append_cancel_left hl
  have hrev : (natStr t₁).toList.reverse ++ '_' :: j₁.toList.reverse
      = (natStr t₂).toList.reverse ++ '_' :: j₂.toList.reverse := by
    have := congrArg List.reverse hl'
    simpa [List.reverse_append] using this
  obtain ⟨hd, hj⟩ := prefix_underscore_inj _ _ _ _
    (fun c hc => natStr_toList_no_underscore t₁ c (List.mem_reverse.mp hc))
    (fun c hc => natStr_toList_no_underscore t₂ c (List.mem_reverse.mp hc)) hrev
  constructor
  · exact toList_eq_toList (List.reverse_injective hj)
  · exact natStr_inj (toList_eq_toList (List.reverse_injective hd))

/-- C8: a second fetch for the same `(jobId, timeWindow)` pair while one
is in flight returns the same in-flight promise and leaves the state
untouched (no second worker request); the dedup key
`worker_${jobId}_${timeWindow}` separates distinct pairs (a different
jobId or a different timeWindow is never coalesced), and a fetch whose key
is not in flight issues exactly one new worker request. -/
theorem fetchWithWorker_coalescing :
    (∀ (s : CoalesceState) (j : String) (tw : Nat),
      fetchWithWorkerCoalesced (fetchWithWorkerCoalesced s j tw).2 j tw
        = ((fetchWithWorkerCoalesced s j tw).1, (fetchWithWorkerCoalesced s j tw).2))
    ∧ (∀ (j₁ j₂ : String) (t₁ t₂ : Nat),
        fetchKey j₁ t₁ = fetchKey j₂ t₂ → j₁ = j₂ ∧ t₁ = t₂)
    ∧ (∀ (s : CoalesceState) (j : String) (tw : Nat),
        lookupA s.inProgress (fetchKey j tw) = none →
        (fetchWithWorkerCoalesced s j tw).2.workerRequests
          = s.workerRequests ++ [(fetchKey j tw, s.nextPromise)]) := by
  refine ⟨?_, fun _ _ _ _ h => fetchKey_inj h, ?_⟩
  · intro s j tw
    unfold fetchWithWorkerCoalesced
    cases h : lookupA s.inProgress (fetchKey j tw) with
    | some p => simp [h]
    | none => simp [h, lookupA_putA_self]
  · intro s j tw h
    unfold fetchWithWorkerCoalesced
    rw [h]

/-- C8 witness: a fresh fetch issues one worker request. -/
theorem fetchWithWorker_coalescing_witness :
    lookupA (⟨[], [], 0⟩ : CoalesceState).inProgress (fetchKey "job-A" 7) = none
    ∧ (fetchWithWorkerCoalesced ⟨[], [], 0⟩ "job-A" 7).2.workerRequests
        = [] ++ [(fetchKey "job-A" 7, 0)] := by
  refine ⟨rfl, ?_⟩
  exact fetchWithWorker_coalescing.2.2 ⟨[], [], 0⟩ "job-A" 7 rfl

/-! ### Peer-store frame lemmas (C3) -/

/-- The read-only-discipline frame: peer rows and the count of read-write
transactions on the peer database are unchanged. -/
def PeerFrame (s' s : MState) : Prop :=
  peerContents s' = peerContents s ∧ s'.peerWriteTx = s.peerWriteTx

def PeerFrame.refl (s : MState) : PeerFrame s s := ⟨rfl, rfl⟩

def PeerFrame.trans {s₁ s₂ s₃ : MState} (h₁ : PeerFrame s₁ s₂)
    (h₂ : PeerFrame s₂ s₃) : PeerFrame s₁ s₃ :=
  ⟨h₁.1.trans h₂.1, h₁.2.trans h₂.2⟩

theorem peerFrame_peerTx (s : MState) :
    PeerFrame { s with peerTx := s.peerTx + 1 } s := ⟨rfl, rfl⟩

theorem getFromDbRoiJob_state (s : MState) (ε : Env) (k : String) :
    (getFromDbRoiJob s ε k).2 = s
    ∨ (getFromDbRoiJob s ε k).2 = { s with peerTx := s.peerTx + 1 } := by
  unfold getFromDbRoiJob
  split
  · exact Or.inl rfl
  split
  · exact Or.inl rfl
  split
  · exact Or.inl rfl
  split
  · exact Or.inr rfl
  · exact Or.inl rfl

theorem getFromDbRoiExec_state (s : MState) (ε : Env) (k : String) :
    (getFromDbRoiExec s ε k).2 = s
    ∨ (getFromDbRoiExec s ε k).2 = { s with peerTx := s.peerTx + 1 } := by
  unfold getFromDbRoiExec
  split
  · exact Or.inl rfl
  split
  · exact Or.inl rfl
  split
  · exact Or.inl rfl
  split
  · exact Or.inr rfl
  · exact Or.inl rfl

theorem getAllRoiJob_state (s : MState) (ε : Env) :
    (getAllRoiJob s ε).2 = s
    ∨ (getAllRoiJob s ε).2 = { s with peerTx := s.peerTx + 1 } := by
  unfold getAllRoiJob
  split
  · exact Or.inl rfl
  split
  · exact Or.inl rfl
  split
  · exact Or.inl rfl
  split
  · exact Or.inr rfl
  · exact Or.inl rfl

theorem getFromDbRoiJob_peerFrame (s : MState) (ε : Env) (k : String) :
    PeerFrame (getFromDbRoiJob s ε k).2 s := by
  rcases getFromDbRoiJob_state s ε k with h | h <;> rw [h]
  · exact PeerFrame.refl s
  · exact peerFrame_peerTx s

theorem getFromDbRoiExec_peerFrame (s : MState) (ε : Env) (k : String) :
    PeerFrame (getFromDbRoiExec s ε k).2 s := by
  rcases getFromDbRoiExec_state s ε k with h | h <;> rw [h]
  · exact PeerFrame.refl s
  · exact peerFrame_peerTx s

theorem getAllRoiJob_peerFrame (s : MState) (ε : Env) :
    PeerFrame (getAllRoiJob s ε).2 s := by
  rcases getAllRoiJob_state s ε with h | h <;> rw [h]
  · exact PeerFrame.refl s
  · exact peerFrame_peerTx s

theorem setOwnJob_peerFrame (s : MState) (v : JobInfo) :
    PeerFrame (setOwnJob s v) s := by
  unfold setOwnJob
  split
  · exact ⟨rfl, rfl⟩
  · exact PeerFrame.refl s

theorem setOwnExec_peerFrame (s : MState) (v : CacheEntry) :
    PeerFrame (setOwnExec s v) s := by
  unfold setOwnExec
  split
  · exact ⟨rfl, rfl⟩
  · exact PeerFrame.refl s

theorem registrySet_peerFrame (s : MState) (j : String) (v : RegEntry) :
    PeerFrame (registrySet s j v) s := ⟨rfl, rfl⟩

theorem foldl_peerFrame {α : Type} (f : MState → α → MState)
    (hf : ∀ s a, PeerFrame (f s a) s) :
    ∀ (l : List α) (s : MState), PeerFrame (l.foldl f s) s := by
  intro l
  induction l with
  | nil => intro s; exact PeerFrame.refl s
  | cons a t ih =>
    intro s
    rw [List.foldl_cons]
    exact (ih (f s a)).trans (hf s a)

theorem restoreJobRegistry_peerFrame (s : MState) (ε : Env) :
    PeerFrame (restoreJobRegistry s ε) s := by
  unfold restoreJobRegistry
  split
  · exact PeerFrame.refl s
  · have hbody1 : ∀ (s' : MState) (entry : JobInfo),
        PeerFrame ((fun s entry =>
          if entry.id ≠ "" ∧ entry.timestamp ≠ 0 ∧ ε.nowMs - entry.timestamp < cacheTTL then
            registrySet s entry.id ⟨entry.timestamp, entry.hasRoi, entry.assumed, false⟩
          else s) s' entry) s' := by
      intro s' entry
      dsimp only
      split
      · exact registrySet_peerFrame _ _ _
      · exact PeerFrame.refl s'
    have hbody2 : ∀ (s' : MState) (entry : JobInfo),
        PeerFrame ((fun (s : MState) (entry : JobInfo) =>
          if entry.id ≠ "" ∧ entry.hasRoi.isSome then
            let skip : Bool :=
              match lookupA s.registry entry.id with
              | some ex => decide (ex.timestamp > entry.timestamp)
              | none => false
            if skip = true then s
            else
              let b := entry.hasRoi.getD false
              let ts := if entry.timestamp = 0 then ε.nowMs else entry.timestamp
              let s := registrySet s entry.id ⟨ts, some b, false, true⟩
              setOwnJob s ⟨entry.id, ε.nowMs, some b, false, true⟩
          else s) s' entry) s' := by
      intro s' entry
      dsimp only
      split
      · split
        · exact PeerFrame.refl s'
        · exact (setOwnJob_peerFrame _ _).trans (registrySet_peerFrame _ _ _)
      · exact PeerFrame.refl s'
    dsimp only
    split
    · dsimp only
      split
      · exact (foldl_peerFrame _ hbody2 _ _).trans
          ((getAllRoiJob_peerFrame _ ε).trans (foldl_peerFrame _ hbody1 _ _))
      · exact foldl_peerFrame _ hbody1 _ _
    · split
      · split
        · exact (foldl_peerFrame _ hbody2 _ _).trans
            ((getAllRoiJob_peerFrame _ ε).trans
              ((foldl_peerFrame _ hbody1 _ _).trans (getAllRoiJob_peerFrame s ε)))
        · exact (foldl_peerFrame _ hbody1 _ _).trans (getAllRoiJob_peerFrame s ε)
      · dsimp only
        split
        · exact (foldl_peerFrame _ hbody2 _ _).trans
            ((getAllRoiJob_peerFrame _ ε).trans (foldl_peerFrame _ hbody1 _ _))
        · exact foldl_peerFrame _ hbody1 _ _

theorem initDb_peerFrame (s : MState) (ε : Env) : PeerFrame (initDb s ε) s := by
  unfold initDb
  split
  · exact PeerFrame.refl s
  · dsimp only
    split
    · split
      · refine (restoreJobRegistry_peerFrame _ ε).trans ?_
        constructor
        · cases hp : s.peer <;> simp [peerContents, hp, emptyDb]
        · rfl
      · exact (restoreJobRegistry_peerFrame _ ε).trans ⟨rfl, rfl⟩
    · exact (restoreJobRegistry_peerFrame _ ε).trans ⟨rfl, rfl⟩

theorem ensureDb_peerFrame (s : MState) (ε : Env) : PeerFrame (ensureDb s ε) s := by
  unfold ensureDb
  split
  · exact PeerFrame.refl s
  · split
    · exact PeerFrame.refl s
    · exact initDb_peerFrame s ε

theorem getStoreJob_peerFrame (s : MState) (ε : Env) (k : String) :
    PeerFrame (getStoreJob s ε k).2 s := by
  unfold getStoreJob
  dsimp only
  split
  · exact ensureDb_peerFrame s ε
  · split
    · exact (getFromDbRoiJob_peerFrame _ ε k).trans (ensureDb_peerFrame s ε)
    · exact ensureDb_peerFrame s ε

theorem roiJobLookupStep_peerFrame (s : MState) (ε : Env) (j : String) :
    PeerFrame (roiJobLookupStep s ε j).2 s := by
  unfold roiJobLookupStep
  split
  · dsimp only
    repeat' split
    all_goals first
      | exact ((setOwnJob_peerFrame _ _).trans
          (registrySet_peerFrame _ _ _)).trans (getFromDbRoiJob_peerFrame s ε j)
      | exact getFromDbRoiJob_peerFrame s ε j
  · exact PeerFrame.refl s

theorem checkJobHasRoiMetricsCachePath_peerFrame (s : MState) (ε : Env) (j : String) :
    PeerFrame (checkJobHasRoiMetricsCachePath s ε j).2 s := by
  unfold checkJobHasRoiMetricsCachePath
  dsimp only
  split
  · exact (registrySet_peerFrame _ _ _).trans (getStoreJob_peerFrame s ε j)
  · split
    · exact (roiJobLookupStep_peerFrame _ ε j).trans (getStoreJob_peerFrame s ε j)
    · exact ((setOwnJob_peerFrame _ _).trans
        ((registrySet_peerFrame _ _ _).trans
          (roiJobLookupStep_peerFrame _ ε j))).trans (getStoreJob_peerFrame s ε j)

theorem checkJobHasRoiMetrics_peerFrame (s : MState) (ε : Env) (j : String) :
    PeerFrame (checkJobHasRoiMetrics s ε j).2 s := by
  unfold checkJobHasRoiMetrics
  split
  · exact PeerFrame.refl s
  · split
    · split
      · exact PeerFrame.refl s
      · exact checkJobHasRoiMetricsCachePath_peerFrame s ε j
    · exact checkJobHasRoiMetricsCachePath_peerFrame s ε j

theorem getStoreExec_peerFrame (s : MState) (ε : Env) (k : String) :
    PeerFrame (getStoreExec s ε k).2 s := by
  unfold getStoreExec
  dsimp only
  split
  · exact ensureDb_peerFrame s ε
  · split
    · split
      · exact (getFromDbRoiExec_peerFrame _ ε k).trans
          ((checkJobHasRoiMetrics_peerFrame _ ε k).trans (ensureDb_peerFrame s ε))
      · exact (checkJobHasRoiMetrics_peerFrame _ ε k).trans (ensureDb_peerFrame s ε)
    · exact ensureDb_peerFrame s ε

theorem needsCacheRefreshRoiStep_peerFrame (s : MState) (ε : Env) (j : String)
    (dataAge : Int) (dr : DateRange) (hrm : Option Bool) :
    PeerFrame (needsCacheRefreshRoiStep s ε j dataAge dr hrm).2 s := by
  unfold needsCacheRefreshRoiStep
  split
  · dsimp only
    repeat' split
    all_goals first
      | exact (setOwnExec_peerFrame _ _).trans (getFromDbRoiExec_peerFrame s ε j)
      | exact getFromDbRoiExec_peerFrame s ε j
  · exact PeerFrame.refl s

theorem needsCacheRefresh_peerFrame (s : MState) (ε : Env) (cd : CacheEntry)
    (dr : DateRange) : PeerFrame (needsCacheRefresh s ε cd dr).2 s := by
  unfold needsCacheRefresh
  dsimp only
  generalize (if cd.jobId ≠ "" then cd.jobId else cd.id) = jid
  have hstep := (needsCacheRefreshRoiStep_peerFrame
      (checkJobHasRoiMetrics s ε jid).2 ε jid (ε.nowMs - cd.timestamp) dr
      (checkJobHasRoiMetrics s ε jid).1).trans
    (checkJobHasRoiMetrics_peerFrame s ε jid)
  repeat' split
  all_goals exact hstep

theorem cacheRoiStatusStep_peerFrame (s : MState) (ε : Env) (j : String)
    (ojc : Option JobInfo) (fb : Option Bool) :
    PeerFrame (cacheRoiStatusStep s ε j ojc fb).2.2 s := by
  unfold cacheRoiStatusStep
  dsimp only
  split
  · split
    · split
      · exact getStoreJob_peerFrame s ε j
      · exact getStoreJob_peerFrame s ε j
    · exact getStoreJob_peerFrame s ε j
  · split
    · exact PeerFrame.refl s
    · exact PeerFrame.refl s

theorem cacheBaseStep_peerFrame (s : MState) (ε : Env) (j : String)
    (hrm : Option Bool) (ed0 : Option CacheEntry) :
    PeerFrame (cacheBaseStep s ε j hrm ed0).2 s := by
  unfold cacheBaseStep
  split
  · dsimp only
    repeat' split
    all_goals exact getFromDbRoiExec_peerFrame s ε j
  · exact PeerFrame.refl s

theorem cacheExecutions_peerFrame (s : MState) (ε : Env) (j : String)
    (xs : List Execution) (tw : Nat) :
    PeerFrame (cacheExecutions s ε j xs tw) s := by
  unfold cacheExecutions
  dsimp only
  have hpre : PeerFrame (if s.dbInit then s else ensureDb s ε) s := by
    split
    · exact PeerFrame.refl s
    · exact ensureDb_peerFrame s ε
  exact (registrySet_peerFrame _ _ _).trans
    ((setOwnJob_peerFrame _ _).trans
      ((setOwnExec_peerFrame _ _).trans
        ((cacheBaseStep_peerFrame _ ε j _ _).trans
          ((cacheRoiStatusStep_peerFrame _ ε j _ _).trans
            ((getStoreJob_peerFrame _ ε j).trans
              ((getStoreExec_peerFrame _ ε j).trans hpre))))))

theorem fetchExecutionsWithWorker_peerFrame (s : MState) (ε : Env) (j : String)
    (tw : Nat) : PeerFrame (fetchExecutionsWithWorker s ε j tw).2 s := by
  unfold fetchExecutionsWithWorker
  exact (cacheExecutions_peerFrame _ ε j _ tw).trans
    ((cacheExecutions_peerFrame _ ε j _ tw).trans (getStoreExec_peerFrame s ε j))

theorem roiCopyStep_peerFrame (s : MState) (ε : Env) (j : String)
    (hrm : Option Bool) (dr : DateRange) :
    PeerFrame (roiCopyStep s ε j hrm dr).2 s := by
  unfold roiCopyStep
  dsimp only
  split
  · exact (setOwnExec_peerFrame _ _).trans (getStoreExec_peerFrame s ε j)
  · exact getStoreExec_peerFrame s ε j

theorem refreshViaWorker_peerFrame (s : MState) (ε : Env) (j : String) (tw : Nat)
    (cached : List Execution) : PeerFrame (refreshViaWorker s ε j tw cached).2 s := by
  unfold refreshViaWorker
  dsimp only
  split
  · exact (cacheExecutions_peerFrame _ ε j _ tw).trans
      (fetchExecutionsWithWorker_peerFrame s ε j tw)
  · exact fetchExecutionsWithWorker_peerFrame s ε j tw

theorem getJobExecutions_peerFrame (s : MState) (ε : Env) (j : String) (tw : Nat) :
    PeerFrame (getJobExecutions s ε j tw).2 s := by
  unfold getJobExecutions
  dsimp only
  have h0 : PeerFrame ((getStoreExec (checkJobHasRoiMetrics (ensureDb s ε) ε j).2 ε j)).2 s :=
    (getStoreExec_peerFrame _ ε j).trans
      ((checkJobHasRoiMetrics_peerFrame _ ε j).trans (ensureDb_peerFrame s ε))
  have h1 : PeerFrame (match (getStoreExec (checkJobHasRoiMetrics (ensureDb s ε) ε j).2 ε j).1 with
      | some cd => (some cd, (getStoreExec (checkJobHasRoiMetrics (ensureDb s ε) ε j).2 ε j).2)
      | none =>
        if sanitizeKey j ≠ j then
          getStoreExec (getStoreExec (checkJobHasRoiMetrics (ensureDb s ε) ε j).2 ε j).2 ε
            (sanitizeKey j)
        else (none, (getStoreExec (checkJobHasRoiMetrics (ensureDb s ε) ε j).2 ε j).2)).2 s := by
    split
    · exact h0
    · split
      · exact (getStoreExec_peerFrame _ ε _).trans h0
      · exact h0
  generalize hg1 : (match (getStoreExec (checkJobHasRoiMetrics (ensureDb s ε) ε j).2 ε j).1 with
      | some cd => (some cd, (getStoreExec (checkJobHasRoiMetrics (ensureDb s ε) ε j).2 ε j).2)
      | none =>
        if sanitizeKey j ≠ j then
          getStoreExec (getStoreExec (checkJobHasRoiMetrics (ensureDb s ε) ε j).2 ε j).2 ε
            (sanitizeKey j)
        else (none, (getStoreExec (checkJobHasRoiMetrics (ensureDb s ε) ε j).2 ε j).2)) = g1 at h1 ⊢
  have h2 : PeerFrame (match g1.1 with
      | some cd => (some cd, g1.2)
      | none =>
        if jsTruthy (checkJobHasRoiMetrics (ensureDb s ε) ε j).1 then
          roiCopyStep g1.2 ε j (checkJobHasRoiMetrics (ensureDb s ε) ε j).1
            ⟨ε.today - (tw : Int), ε.today⟩
        else (none, g1.2)).2 s := by
    split
    · exact h1
    · split
      · exact (roiCopyStep_peerFrame _ ε j _ _).trans h1
      · exact h1
  generalize hg2 : (match g1.1 with
      | some cd => (some cd, g1.2)
      | none =>
        if jsTruthy (checkJobHasRoiMetrics (ensureDb s ε) ε j).1 then
          roiCopyStep g1.2 ε j (checkJobHasRoiMetrics (ensureDb s ε) ε j).1
            ⟨ε.today - (tw : Int), ε.today⟩
        else (none, g1.2)) = g2 at h2 ⊢
  repeat' split
  all_goals first
    | exact h2
    | exact (refreshViaWorker_peerFrame _ ε j tw _).trans h2
    | exact (fetchExecutionsWithWorker_peerFrame _ ε j tw).trans h2
    | exact (needsCacheRefresh_peerFrame _ ε _ _).trans h2
    | exact (refreshViaWorker_peerFrame _ ε j tw _).trans
        ((needsCacheRefresh_peerFrame _ ε _ _).trans h2)

/-- C3: every operation of the manager — `set` itself, `cacheExecutions`,
the classification `checkJobHasRoiMetrics`, the registry restore, and a
whole `getJobExecutions` call — leaves the peer database's rows unchanged
and opens no read-write transaction on it: all writes target the own
`jobMetricsCache` database only (the lone effect an operation can have on
the peer database is the side effect of a bare `indexedDB.open`, which can
create an empty, store-less database but never touches rows). -/
theorem peer_store_readonly :
    (∀ (s : MState) (v : JobInfo), peerContents (setOwnJob s v) = peerContents s
      ∧ (setOwnJob s v).peerWriteTx = s.peerWriteTx)
    ∧ (∀ (s : MState) (v : CacheEntry), peerContents (setOwnExec s v) = peerContents s
      ∧ (setOwnExec s v).peerWriteTx = s.peerWriteTx)
    ∧ (∀ (s : MState) (ε : Env) (j : String) (xs : List Execution) (tw : Nat),
        peerContents (cacheExecutions s ε j xs tw) = peerContents s
        ∧ (cacheExecutions s ε j xs tw).peerWriteTx = s.peerWriteTx)
    ∧ (∀ (s : MState) (ε : Env) (j : String),
        peerContents (checkJobHasRoiMetrics s ε j).2 = peerContents s
        ∧ (checkJobHasRoiMetrics s ε j).2.peerWriteTx = s.peerWriteTx)
    ∧ (∀ (s : MState) (ε : Env),
        peerContents (restoreJobRegistry s ε) = peerContents s
        ∧ (restoreJobRegistry s ε).peerWriteTx = s.peerWriteTx)
    ∧ (∀ (s : MState) (ε : Env) (j : String) (tw : Nat),
        peerContents (getJobExecutions s ε j tw).2 = peerContents s
        ∧ (getJobExecutions s ε j tw).2.peerWriteTx = s.peerWriteTx) :=
  ⟨fun s v => setOwnJob_peerFrame s v,
   fun s v => setOwnExec_peerFrame s v,
   fun s ε j xs tw => cacheExecutions_peerFrame s ε j xs tw,
   fun s ε j => checkJobHasRoiMetrics_peerFrame s ε j,
   fun s ε => restoreJobRegistry_peerFrame s ε,
   fun s ε j tw => getJobExecutions_peerFrame s ε j tw⟩

/-! ### Peer-silence lemmas under the peer-absent flag (C4) -/

/-- No `indexedDB.open` attempt and no transaction of either kind against
the peer database. -/
def PeerQuiet (s' s : MState) : Prop :=
  s'.peerOpens = s.peerOpens ∧ s'.peerTx = s.peerTx ∧ s'.peerWriteTx = s.peerWriteTx

def PeerQuiet.refl (s : MState) : PeerQuiet s s := ⟨rfl, rfl, rfl⟩

def PeerQuiet.trans {s₁ s₂ s₃ : MState} (h₁ : PeerQuiet s₁ s₂)
    (h₂ : PeerQuiet s₂ s₃) : PeerQuiet s₁ s₃ :=
  ⟨h₁.1.trans h₂.1, h₁.2.1.trans h₂.2.1, h₁.2.2.trans h₂.2.2⟩

theorem getFromDbRoiJob_peerAbsent {ε : Env} (hpa : ε.peerAbsent = true)
    (s : MState) (k : String) : getFromDbRoiJob s ε k = (none, s) := by
  unfold getFromDbRoiJob
  split
  · rfl
  · simp [hpa]

theorem getFromDbRoiExec_peerAbsent {ε : Env} (hpa : ε.peerAbsent = true)
    (s : MState) (k : String) : getFromDbRoiExec s ε k = (none, s) := by
  unfold getFromDbRoiExec
  split
  · rfl
  · simp [hpa]

theorem getAllRoiJob_peerAbsent {ε : Env} (hpa : ε.peerAbsent = true)
    (s : MState) : getAllRoiJob s ε = ([], s) := by
  unfold getAllRoiJob
  split
  · rfl
  · simp [hpa]

theorem setOwnJob_peerQuiet (s : MState) (v : JobInfo) :
    PeerQuiet (setOwnJob s v) s := by
  unfold setOwnJob
  split
  · exact ⟨rfl, rfl, rfl⟩
  · exact PeerQuiet.refl s

theorem setOwnExec_peerQuiet (s : MState) (v : CacheEntry) :
    PeerQuiet (setOwnExec s v) s := by
  unfold setOwnExec
  split
  · exact ⟨rfl, rfl, rfl⟩
  · exact PeerQuiet.refl s

theorem registrySet_peerQuiet (s : MState) (j : String) (v : RegEntry) :
    PeerQuiet (registrySet s j v) s := ⟨rfl, rfl, rfl⟩

theorem foldl_peerQuiet {α : Type} (f : MState → α → MState)
    (hf : ∀ s a, PeerQuiet (f s a) s) :
    ∀ (l : List α) (s : MState), PeerQuiet (l.foldl f s) s := by
  intro l
  induction l with
  | nil => intro s; exact PeerQuiet.refl s
  | cons a t ih =>
    intro s
    rw [List.foldl_cons]
    exact (ih (f s a)).trans (hf s a)

theorem restoreJobRegistry_peerQuiet {ε : Env} (hpa : ε.peerAbsent = true)
    (s : MState) : PeerQuiet (restoreJobRegistry s ε) s := by
  unfold restoreJobRegistry
  split
  · exact PeerQuiet.refl s
  · have hbody1 : ∀ (s' : MState) (entry : JobInfo),
        PeerQuiet ((fun s entry =>
          if entry.id ≠ "" ∧ entry.timestamp ≠ 0 ∧ ε.nowMs - entry.timestamp < cacheTTL then
            registrySet s entry.id ⟨entry.timestamp, entry.hasRoi, entry.assumed, false⟩
          else s) s' entry) s' := by
      intro s' entry
      dsimp only
      split
      · exact registrySet_peerQuiet _ _ _
      · exact PeerQuiet.refl s'
    have hbody2 : ∀ (s' : MState) (entry : JobInfo),
        PeerQuiet ((fun (s : MState) (entry : JobInfo) =>
          if entry.id ≠ "" ∧ entry.hasRoi.isSome then
            let skip : Bool :=
              match lookupA s.registry entry.id with
              | some ex => decide (ex.timestamp > entry.timestamp)
              | none => false
            if skip = true then s
            else
              let b := entry.hasRoi.getD false
              let ts := if entry.timestamp = 0 then ε.nowMs else entry.timestamp
              let s := registrySet s entry.id ⟨ts, some b, false, true⟩
              setOwnJob s ⟨entry.id, ε.nowMs, some b, false, true⟩
          else s) s' entry) s' := by
      intro s' entry
      dsimp only
      split
      · split
        · exact PeerQuiet.refl s'
        · exact (setOwnJob_peerQuiet _ _).trans (registrySet_peerQuiet _ _ _)
      · exact PeerQuiet.refl s'
    have hroi : ∀ s' : MState, PeerQuiet (getAllRoiJob s' ε).2 s' := by
      intro s'
      rw [getAllRoiJob_peerAbsent hpa]
      exact PeerQuiet.refl s'
    dsimp only
    split
    · dsimp only
      split
      · exact (foldl_peerQuiet _ hbody2 _ _).trans
          ((hroi _).trans (foldl_peerQuiet _ hbody1 _ _))
      · exact foldl_peerQuiet _ hbody1 _ _
    · split
      · split
        · exact (foldl_peerQuiet _ hbody2 _ _).trans
            ((hroi _).trans ((foldl_peerQuiet _ hbody1 _ _).trans (hroi s)))
        · exact (foldl_peerQuiet _ hbody1 _ _).trans (hroi s)
      · dsimp only
        split
        · exact (foldl_peerQuiet _ hbody2 _ _).trans
            ((hroi _).trans (foldl_peerQuiet _ hbody1 _ _))
        · exact foldl_peerQuiet _ hbody1 _ _

theorem initDb_peerQuiet {ε : Env} (hpa : ε.peerAbsent = true) (s : MState) :
    PeerQuiet (initDb s ε) s := by
  unfold initDb
  split
  · exact PeerQuiet.refl s
  · exact (restoreJobRegistry_peerQuiet hpa _).trans ⟨rfl, rfl, rfl⟩

theorem ensureDb_peerQuiet {ε : Env} (hpa : ε.peerAbsent = true) (s : MState) :
    PeerQuiet (ensureDb s ε) s := by
  unfold ensureDb
  split
  · exact PeerQuiet.refl s
  · split
    · exact PeerQuiet.refl s
    · exact initDb_peerQuiet hpa s

theorem getStoreJob_peerQuiet {ε : Env} (hpa : ε.peerAbsent = true)
    (s : MState) (k : String) : PeerQuiet (getStoreJob s ε k).2 s := by
  unfold getStoreJob
  dsimp only
  split
  · exact ensureDb_peerQuiet hpa s
  · split
    · rw [getFromDbRoiJob_peerAbsent hpa]
      exact ensureDb_peerQuiet hpa s
    · exact ensureDb_peerQuiet hpa s

theorem roiJobLookupStep_peerQuiet {ε : Env} (hpa : ε.peerAbsent = true)
    (s : MState) (j : String) : PeerQuiet (roiJobLookupStep s ε j).2 s := by
  unfold roiJobLookupStep
  split
  · rw [getFromDbRoiJob_peerAbsent hpa]
    exact PeerQuiet.refl s
  · exact PeerQuiet.refl s

theorem checkJobHasRoiMetricsCachePath_peerQuiet {ε : Env} (hpa : ε.peerAbsent = true)
    (s : MState) (j : String) :
    PeerQuiet (checkJobHasRoiMetricsCachePath s ε j).2 s := by
  unfold checkJobHasRoiMetricsCachePath
  dsimp only
  split
  · exact (registrySet_peerQuiet _ _ _).trans (getStoreJob_peerQuiet hpa s j)
  · split
    · exact (roiJobLookupStep_peerQuiet hpa _ j).trans (getStoreJob_peerQuiet hpa s j)
    · exact ((setOwnJob_peerQuiet _ _).trans
        ((registrySet_peerQuiet _ _ _).trans
          (roiJobLookupStep_peerQuiet hpa _ j))).trans (getStoreJob_peerQuiet hpa s j)

theorem checkJobHasRoiMetrics_peerQuiet {ε : Env} (hpa : ε.peerAbsent = true)
    (s : MState) (j : String) : PeerQuiet (checkJobHasRoiMetrics s ε j).2 s := by
  unfold checkJobHasRoiMetrics
  rw [if_pos hpa]
  exact PeerQuiet.refl s

theorem getStoreExec_peerQuiet {ε : Env} (hpa : ε.peerAbsent = true)
    (s : MState) (k : String) : PeerQuiet (getStoreExec s ε k).2 s := by
  unfold getStoreExec
  dsimp only
  split
  · exact ensureDb_peerQuiet hpa s
  · split
    · split
      · rw [getFromDbRoiExec_peerAbsent hpa]
        exact (checkJobHasRoiMetrics_peerQuiet hpa _ k).trans (ensureDb_peerQuiet hpa s)
      · exact (checkJobHasRoiMetrics_peerQuiet hpa _ k).trans (ensureDb_peerQuiet hpa s)
    · exact ensureDb_peerQuiet hpa s

theorem needsCacheRefreshRoiStep_peerQuiet {ε : Env} (hpa : ε.peerAbsent = true)
    (s : MState) (j : String) (dataAge : Int) (dr : DateRange) (hrm : Option Bool) :
    PeerQuiet (needsCacheRefreshRoiStep s ε j dataAge dr hrm).2 s := by
  unfold needsCacheRefreshRoiStep
  split
  · rw [getFromDbRoiExec_peerAbsent hpa]
    exact PeerQuiet.refl s
  · exact PeerQuiet.refl s

theorem needsCacheRefresh_peerQuiet {ε : Env} (hpa : ε.peerAbsent = true)
    (s : MState) (cd : CacheEntry) (dr : DateRange) :
    PeerQuiet (needsCacheRefresh s ε cd dr).2 s := by
  unfold needsCacheRefresh
  dsimp only
  generalize (if cd.jobId ≠ "" then cd.jobId else cd.id) = jid
  have hstep := (needsCacheRefreshRoiStep_peerQuiet hpa
      (checkJobHasRoiMetrics s ε jid).2 jid (ε.nowMs - cd.timestamp) dr
      (checkJobHasRoiMetrics s ε jid).1).trans
    (checkJobHasRoiMetrics_peerQuiet hpa s jid)
  repeat' split
  all_goals exact hstep

theorem cacheRoiStatusStep_peerQuiet {ε : Env} (hpa : ε.peerAbsent = true)
    (s : MState) (j : String) (ojc : Option JobInfo) (fb : Option Bool) :
    PeerQuiet (cacheRoiStatusStep s ε j ojc fb).2.2 s := by
  unfold cacheRoiStatusStep
  dsimp only
  repeat' split
  all_goals first
    | exact getStoreJob_peerQuiet hpa s j
    | exact PeerQuiet.refl s

theorem cacheBaseStep_peerQuiet {ε : Env} (hpa : ε.peerAbsent = true)
    (s : MState) (j : String) (hrm : Option Bool) (ed0 : Option CacheEntry) :
    PeerQuiet (cacheBaseStep s ε j hrm ed0).2 s := by
  unfold cacheBaseStep
  split
  · rw [getFromDbRoiExec_peerAbsent hpa]
    exact PeerQuiet.refl s
  · exact PeerQuiet.refl s

theorem cacheExecutions_peerQuiet {ε : Env} (hpa : ε.peerAbsent = true)
    (s : MState) (j : String) (xs : List Execution) (tw : Nat) :
    PeerQuiet (cacheExecutions s ε j xs tw) s := by
  unfold cacheExecutions
  dsimp only
  have hpre : PeerQuiet (if s.dbInit then s else ensureDb s ε) s := by
    split
    · exact PeerQuiet.refl s
    · exact ensureDb_peerQuiet hpa s
  exact (registrySet_peerQuiet _ _ _).trans
    ((setOwnJob_peerQuiet _ _).trans
      ((setOwnExec_peerQuiet _ _).trans
        ((cacheBaseStep_peerQuiet hpa _ j _ _).trans
          ((cacheRoiStatusStep_peerQuiet hpa _ j _ _).trans
            ((getStoreJob_peerQuiet hpa _ j).trans
              ((getStoreExec_peerQuiet hpa _ j).trans hpre))))))

theorem fetchExecutionsWithWorker_peerQuiet {ε : Env} (hpa : ε.peerAbsent = true)
    (s : MState) (j : String) (tw : Nat) :
    PeerQuiet (fetchExecutionsWithWorker s ε j tw).2 s := by
  unfold fetchExecutionsWithWorker
  exact (cacheExecutions_peerQuiet hpa _ j _ tw).trans
    ((cacheExecutions_peerQuiet hpa _ j _ tw).trans (getStoreExec_peerQuiet hpa s j))

theorem roiCopyStep_peerQuiet {ε : Env} (hpa : ε.peerAbsent = true)
    (s : MState) (j : String) (hrm : Option Bool) (dr : DateRange) :
    PeerQuiet (roiCopyStep s ε j hrm dr).2 s := by
  unfold roiCopyStep
  dsimp only
  split
  · exact (setOwnExec_peerQuiet _ _).trans (getStoreExec_peerQuiet hpa s j)
  · exact getStoreExec_peerQuiet hpa s j

theorem refreshViaWorker_peerQuiet {ε : Env} (hpa : ε.peerAbsent = true)
    (s : MState) (j : String) (tw : Nat) (cached : List Execution) :
    PeerQuiet (refreshViaWorker s ε j tw cached).2 s := by
  unfold refreshViaWorker
  dsimp only
  split
  · exact (cacheExecutions_peerQuiet hpa _ j _ tw).trans
      (fetchExecutionsWithWorker_peerQuiet hpa s j tw)
  · exact fetchExecutionsWithWorker_peerQuiet hpa s j tw

/-- C4: when the peer-installed flag reads `false`
(`window.RDPRO["ui-jobmetrics"].hasRoiSummary === false`), an entire
`getJobExecutions` cycle — including database initialization, registry
restore, classification, cache reads, the worker fetch and both caching
passes — performs zero `indexedDB.open` attempts on the peer database and
opens zero transactions (read or write) on it. -/
theorem getJobExecutions_no_peer_access (s : MState) (ε : Env) (j : String)
    (tw : Nat) (hpa : ε.peerAbsent = true) :
    (getJobExecutions s ε j tw).2.peerOpens = s.peerOpens
    ∧ (getJobExecutions s ε j tw).2.peerTx = s.peerTx
    ∧ (getJobExecutions s ε j tw).2.peerWriteTx = s.peerWriteTx := by
  unfold getJobExecutions
  dsimp only
  have h0 : PeerQuiet ((getStoreExec (checkJobHasRoiMetrics (ensureDb s ε) ε j).2 ε j)).2 s :=
    (getStoreExec_peerQuiet hpa _ j).trans
      ((checkJobHasRoiMetrics_peerQuiet hpa _ j).trans (ensureDb_peerQuiet hpa s))
  have h1 : PeerQuiet (match (getStoreExec (checkJobHasRoiMetrics (ensureDb s ε) ε j).2 ε j).1 with
      | some cd => (some cd, (getStoreExec (checkJobHasRoiMetrics (ensureDb s ε) ε j).2 ε j).2)
      | none =>
        if sanitizeKey j ≠ j then
          getStoreExec (getStoreExec (checkJobHasRoiMetrics (ensureDb s ε) ε j).2 ε j).2 ε
            (sanitizeKey j)
        else (none, (getStoreExec (checkJobHasRoiMetrics (ensureDb s ε) ε j).2 ε j).2)).2 s := by
    split
    · exact h0
    · split
      · exact (getStoreExec_peerQuiet hpa _ _).trans h0
      · exact h0
  generalize hg1 : (match (getStoreExec (checkJobHasRoiMetrics (ensureDb s ε) ε j).2 ε j).1 with
      | some cd => (some cd, (getStoreExec (checkJobHasRoiMetrics (ensureDb s ε) ε j).2 ε j).2)
      | none =>
        if sanitizeKey j ≠ j then
          getStoreExec (getStoreExec (checkJobHasRoiMetrics (ensureDb s ε) ε j).2 ε j).2 ε
            (sanitizeKey j)
        else (none, (getStoreExec (checkJobHasRoiMetrics (ensureDb s ε) ε j).2 ε j).2)) = g1 at h1 ⊢
  have h2 : PeerQuiet (match g1.1 with
      | some cd => (some cd, g1.2)
      | none =>
        if jsTruthy (checkJobHasRoiMetrics (ensureDb s ε) ε j).1 then
          roiCopyStep g1.2 ε j (checkJobHasRoiMetrics (ensureDb s ε) ε j).1
            ⟨ε.today - (tw : Int), ε.today⟩
        else (none, g1.2)).2 s := by
    split
    · exact h1
    · split
      · exact (roiCopyStep_peerQuiet hpa _ j _ _).trans h1
      · exact h1
  generalize hg2 : (match g1.1 with
      | some cd => (some cd, g1.2)
      | none =>
        if jsTruthy (checkJobHasRoiMetrics (ensureDb s ε) ε j).1 then
          roiCopyStep g1.2 ε j (checkJobHasRoiMetrics (ensureDb s ε) ε j).1
            ⟨ε.today - (tw : Int), ε.today⟩
        else (none, g1.2)) = g2 at h2 ⊢
  have hfinal : ∀ s' : MState, PeerQuiet s' s →
      s'.peerOpens = s.peerOpens ∧ s'.peerTx = s.peerTx ∧ s'.peerWriteTx = s.peerWriteTx :=
    fun s' h => h
  apply hfinal
  repeat' split
  all_goals first
    | exact h2
    | exact (refreshViaWorker_peerQuiet hpa _ j tw _).trans h2
    | exact (fetchExecutionsWithWorker_peerQuiet hpa _ j tw).trans h2
    | exact (needsCacheRefresh_peerQuiet hpa _ _ _).trans h2
    | exact (refreshViaWorker_peerQuiet hpa _ j tw _).trans
        ((needsCacheRefresh_peerQuiet hpa _ _ _).trans h2)

/-- C4 witness: a concrete call with the flag set. -/
theorem getJobExecutions_no_peer_access_witness :
    ((⟨true, true, 0, 0, []⟩ : Env).peerAbsent = true)
    ∧ (getJobExecutions ⟨⟨true, [], []⟩, none, false, false, [], 0, 0, 0⟩
        ⟨true, true, 0, 0, []⟩ "job-A" 7).2.peerOpens = 0 := by
  refine ⟨rfl, ?_⟩
  exact (getJobExecutions_no_peer_access
    ⟨⟨true, [], []⟩, none, false, false, [], 0, 0, 0⟩
    ⟨true, true, 0, 0, []⟩ "job-A" 7 rfl).1

/-! ### Behaviour lemmas under the peer-absent flag (C10, C2) -/

theorem ensureDb_id {ε : Env} (hpa : ε.peerAbsent = true) {s : MState}
    (hdb : s.dbInit = true) : ensureDb s ε = s := by
  unfold ensureDb
  split
  · rfl
  · split
    · rfl
    · rename_i h2
      exact absurd ⟨hpa, hdb⟩ h2

theorem checkJobHasRoiMetrics_peerAbsent {ε : Env} (hpa : ε.peerAbsent = true)
    (s : MState) (j : String) : checkJobHasRoiMetrics s ε j = (some false, s) := by
  unfold checkJobHasRoiMetrics
  rw [if_pos hpa]

theorem getFromDbOwnExec_eq {s : MState} (hdb : s.dbInit = true) (k : String) :
    getFromDbOwnExec s k = lookupA s.own.executionCache k := by
  unfold getFromDbOwnExec
  rw [if_pos hdb]

theorem getFromDbOwnJob_eq {s : MState} (hdb : s.dbInit = true) (k : String) :
    getFromDbOwnJob s k = lookupA s.own.jobCache k := by
  unfold getFromDbOwnJob
  rw [if_pos hdb]

theorem getStoreExec_peerAbsent {ε : Env} (hpa : ε.peerAbsent = true) {s : MState}
    (hdb : s.dbInit = true) (k : String) :
    getStoreExec s ε k = (lookupA s.own.executionCache k, s) := by
  unfold getStoreExec
  dsimp only
  rw [ensureDb_id hpa hdb, getFromDbOwnExec_eq hdb]
  cases hl : lookupA s.own.executionCache k with
  | some v => rfl
  | none =>
    dsimp only
    split
    · rw [checkJobHasRoiMetrics_peerAbsent hpa]
      rfl
    · rfl

theorem getStoreJob_peerAbsent {ε : Env} (hpa : ε.peerAbsent = true) {s : MState}
    (hdb : s.dbInit = true) (k : String) :
    getStoreJob s ε k = (lookupA s.own.jobCache k, s) := by
  unfold getStoreJob
  dsimp only
  rw [ensureDb_id hpa hdb, getFromDbOwnJob_eq hdb]
  cases hl : lookupA s.own.jobCache k with
  | some v => rfl
  | none =>
    dsimp only
    split
    · rw [getFromDbRoiJob_peerAbsent hpa]
    · rfl

theorem cacheRoiStatusStep_peerAbsent {ε : Env} (hpa : ε.peerAbsent = true)
    {s : MState} (hdb : s.dbInit = true) (j : String) (ojc : Option JobInfo)
    (fb : Option Bool) :
    ∃ er hm : Option Bool, cacheRoiStatusStep s ε j ojc fb = (er, hm, s) := by
  unfold cacheRoiStatusStep
  dsimp only
  split
  · rw [getStoreJob_peerAbsent hpa hdb]
    cases hl : lookupA s.own.jobCache j with
    | some rjc =>
      dsimp only
      cases hr : rjc.hasRoi with
      | some b => exact ⟨some b, some b, rfl⟩
      | none => exact ⟨none, fb, rfl⟩
    | none => exact ⟨none, fb, rfl⟩
  · cases ojc with
    | some jc => exact ⟨jc.hasRoi, jc.hasRoi, rfl⟩
    | none => exact ⟨none, fb, rfl⟩

theorem cacheBaseStep_peerAbsent {ε : Env} (hpa : ε.peerAbsent = true)
    (s : MState) (j : String) (hm : Option Bool) (ed0 : Option CacheEntry) :
    cacheBaseStep s ε j hm ed0 = (ed0, s) := by
  unfold cacheBaseStep
  split
  · rw [getFromDbRoiExec_peerAbsent hpa]
  · rfl

theorem cacheExecutions_peerAbsent {ε : Env} (hpa : ε.peerAbsent = true)
    {s : MState} (hdb : s.dbInit = true) (j : String) (xs : List Execution)
    (tw : Nat) :
    ∃ hR : Option Bool,
      (cacheExecutions s ε j xs tw).dbInit = true
      ∧ (cacheExecutions s ε j xs tw).own.executionCache =
          putA s.own.executionCache j
            ⟨j, j,
             (match lookupA s.own.executionCache j with
              | some ed => mergeById ed.data xs
              | none => xs),
             ε.nowMs,
             some (match lookupA s.own.executionCache j with
                   | some ed => mergedRange ed.dateRange ⟨ε.today - (tw : Int), ε.today⟩
                   | none => ⟨ε.today - (tw : Int), ε.today⟩),
             hR⟩ := by
  unfold cacheExecutions
  dsimp only
  rw [if_pos hdb, getStoreExec_peerAbsent hpa hdb, getStoreJob_peerAbsent hpa hdb]
  obtain ⟨er, hm, hrs⟩ := cacheRoiStatusStep_peerAbsent hpa hdb j
    (lookupA s.own.jobCache j)
    (match xs with
     | e :: _ => e.hasRoi
     | [] => none)
  rw [hrs]
  dsimp only
  rw [cacheBaseStep_peerAbsent hpa]
  dsimp only
  refine ⟨(match hm with
    | some b => some b
    | none =>
      if xs.any (fun e => e.roiHours.isSome) then some true
      else if xs.length ≥ 5 then some false
      else none), ?_, ?_⟩
  · simp [registrySet, setOwnJob, setOwnExec, hdb]
  · simp only [registrySet, setOwnJob, setOwnExec, hdb, if_true]
    cases hl : lookupA s.own.executionCache j with
    | some ed =>
      cases hr : ed.dateRange <;> cases hm <;> rfl
    | none => cases hm <;> rfl

/-! ### Merging an empty fresh list, and the stale-entry fallback (C10) -/

theorem putA_append_of_not_mem {m : List (String × α)} {k : String} (v : α)
    (h : k ∉ keysA m) : putA m k v = m ++ [(k, v)] := by
  unfold putA
  rw [if_neg (fun hc => h (mem_keysA_iff_any.mpr hc))]

theorem insertAll_eq_append {m : List (String × Execution)} {xs : List Execution}
    (hnd : (xs.map (fun x => x.id)).Nodup)
    (hdisj : ∀ x ∈ xs, x.id ∉ keysA m) :
    insertAll m xs = m ++ xs.map (fun x => (x.id, x)) := by
  induction xs generalizing m with
  | nil => simp [insertAll]
  | cons e t ih =>
    rw [insertAll_cons, putA_append_of_not_mem e (hdisj e (List.mem_cons_self e t))]
    have hnd0 : (e.id :: t.map (fun x => x.id)).Nodup := by simpa using hnd
    have hnd1 : (t.map (fun x => x.id)).Nodup := (List.nodup_cons.mp hnd0).2
    have hhead : e.id ∉ t.map (fun x => x.id) := (List.nodup_cons.mp hnd0).1
    have hdisj1 : ∀ x ∈ t, x.id ∉ keysA (m ++ [(e.id, e)]) := by
      intro x hx hc
      rw [keysA, List.map_append] at hc
      rcases List.mem_append.mp hc with hc | hc
      · exact hdisj x (List.mem_cons_of_mem e hx) hc
      · have hxe : x.id = e.id := by simpa using hc
        exact hhead (hxe ▸ List.mem_map_of_mem (fun y => y.id) hx)
    rw [ih hnd1 hdisj1]
    simp

theorem mergeById_nil_of_nodup {xs : List Execution}
    (hnd : (xs.map (fun x => x.id)).Nodup) : mergeById xs [] = xs := by
  have h0 : mergeById xs [] = (insertAll [] xs).map (fun p => p.2) := rfl
  rw [h0, insertAll_eq_append hnd (fun x _ => by simp [keysA])]
  have hc : ((fun p : String × Execution => p.2) ∘ fun x : Execution => (x.id, x)) = id := rfl
  simp [hc]

/-- A cached own-store entry judged stale by age forces the worker path;
with an empty worker result `getJobExecutions` resolves with the cached
records and the final state is the double empty-list `cacheExecutions`. -/
theorem getJobExecutions_stale_eq {ε : Env} (hpa : ε.peerAbsent = true)
    {s : MState} (hdb : s.dbInit = true) {j : String} {cd : CacheEntry}
    (hlook : lookupA s.own.executionCache j = some cd)
    (hstale : freshnessMs ≤ ε.nowMs - cd.timestamp)
    (hwr : ε.workerResult = []) (tw : Nat) :
    getJobExecutions s ε j tw =
      (cd.data, cacheExecutions (cacheExecutions s ε j [] tw) ε j [] tw) := by
  unfold getJobExecutions
  dsimp only
  rw [ensureDb_id hpa hdb, checkJobHasRoiMetrics_peerAbsent hpa]
  try dsimp only
  rw [getStoreExec_peerAbsent hpa hdb, hlook]
  try dsimp only
  rw [if_pos (by decide : ¬(jsTruthy (some false) = true))]
  try dsimp only
  split
  case isTrue =>
    split
    case isTrue hfh =>
      exfalso
      simp only [decide_eq_true_eq, not_or, ge_iff_le] at hfh
      exact hfh.2 hstale
    case isFalse =>
      unfold refreshViaWorker fetchExecutionsWithWorker
      try dsimp only
      rw [getStoreExec_peerAbsent hpa hdb, hwr]
      simp
  case isFalse =>
    unfold refreshViaWorker fetchExecutionsWithWorker
    try dsimp only
    rw [getStoreExec_peerAbsent hpa hdb, hwr]
    simp

/-- C10: when a cached entry exists for the job but is judged stale (it
needs a refresh), and the worker fetch completes with an empty execution
list, `getJobExecutions` resolves with the previously cached records
rather than the empty fresh result, and the entry kept in the own
`executionCache` still carries the cached records — it is not overwritten
with the empty list. -/
theorem getJobExecutions_stale_fallback {ε : Env} {s : MState} {j : String}
    {cd : CacheEntry} (hpa : ε.peerAbsent = true) (hdb : s.dbInit = true)
    (hlook : lookupA s.own.executionCache j = some cd)
    (hnd : (cd.data.map (fun x => x.id)).Nodup)
    (hstale : freshnessMs ≤ ε.nowMs - cd.timestamp)
    (hwr : ε.workerResult = []) (tw : Nat) :
    (getJobExecutions s ε j tw).1 = cd.data
    ∧ ∃ e : CacheEntry,
        lookupA (getJobExecutions s ε j tw).2.own.executionCache j = some e
        ∧ e.data = cd.data := by
  rw [getJobExecutions_stale_eq hpa hdb hlook hstale hwr tw]
  refine ⟨rfl, ?_⟩
  obtain ⟨hR1, hdb1, hec1⟩ := cacheExecutions_peerAbsent hpa hdb j [] tw
  obtain ⟨hR2, hdb2, hec2⟩ := cacheExecutions_peerAbsent hpa hdb1 j [] tw
  dsimp only
  rw [hec2]
  refine ⟨_, lookupA_putA_self _ _ _, ?_⟩
  dsimp only
  rw [hec1, lookupA_putA_self]
  dsimp only
  rw [hlook]
  dsimp only
  rw [mergeById_nil_of_nodup hnd, mergeById_nil_of_nodup hnd]

/-- C10 witness: a concrete stale entry is served from cache, and kept,
on an empty worker fetch. -/
theorem getJobExecutions_stale_fallback_witness :
    freshnessMs ≤ ((⟨true, true, 28800000, 0, []⟩ : Env)).nowMs
        - ((⟨"j", "j", [], 0, none, none⟩ : CacheEntry)).timestamp
    ∧ ((getJobExecutions
          ⟨⟨true, [], [("j", ⟨"j", "j", [], 0, none, none⟩)]⟩,
           none, true, false, [], 0, 0, 0⟩
          ⟨true, true, 28800000, 0, []⟩ "j" 7).1 = []
       ∧ ∃ e : CacheEntry,
          lookupA (getJobExecutions
            ⟨⟨true, [], [("j", ⟨"j", "j", [], 0, none, none⟩)]⟩,
             none, true, false, [], 0, 0, 0⟩
            ⟨true, true, 28800000, 0, []⟩ "j" 7).2.own.executionCache "j" = some e
          ∧ e.data = []) :=
  ⟨by decide,
   @getJobExecutions_stale_fallback ⟨true, true, 28800000, 0, []⟩
     ⟨⟨true, [], [("j", ⟨"j", "j", [], 0, none, none⟩)]⟩, none, true, false, [], 0, 0, 0⟩
     "j" ⟨"j", "j", [], 0, none, none⟩
     rfl rfl (by decide) (by decide) (by decide) rfl 7⟩

/-! ### The covered date range across refreshes (C2) -/

/-- C2 counterexample: one `getJobExecutions` refresh check takes the
peer-copy path of `needsCacheRefresh`, which stores the peer entry's date
range *in place of* the own entry's.  The stored covered range shrinks
from days −30..0 to days −5..0: it is not the outer bounds of the union
of all ranges fetched, and it is not monotonically non-shrinking. -/
theorem getJobExecutions_range_shrinks :
    ((lookupA shrinkState.own.executionCache "jobR").map (fun e => e.dateRange)
        = some (some ⟨-30, 0⟩))
    ∧ ((lookupA (getJobExecutions shrinkState shrinkEnv "jobR" 7).2.own.executionCache
          "jobR").map (fun e => e.dateRange) = some (some ⟨-5, 0⟩))
    ∧ ¬((-5 : Int) ≤ (-30 : Int)) := by decide

theorem foldRange_le (rs : List RefreshReq) (dr : DateRange) :
    (foldRange rs dr).begin ≤ dr.begin ∧ dr.end_ ≤ (foldRange rs dr).end_ := by
  induction rs generalizing dr with
  | nil => exact ⟨le_refl _, le_refl _⟩
  | cons r t ih =>
    have h := ih ⟨min (reqRange r.env r.tw).begin dr.begin,
                  max (reqRange r.env r.tw).end_ dr.end_⟩
    exact ⟨le_trans h.1 (min_le_right _ _), le_trans (le_max_right _ _) h.2⟩

theorem foldRange_mem (rs : List RefreshReq) (dr : DateRange) :
    ∀ q ∈ rs, (foldRange rs dr).begin ≤ (reqRange q.env q.tw).begin
      ∧ (reqRange q.env q.tw).end_ ≤ (foldRange rs dr).end_ := by
  induction rs generalizing dr with
  | nil => intro q hq; cases hq
  | cons r t ih =>
    intro q hq
    rcases List.mem_cons.mp hq with hq | hq
    · subst hq
      have h := foldRange_le t ⟨min (reqRange q.env q.tw).begin dr.begin,
                                max (reqRange q.env q.tw).end_ dr.end_⟩
      exact ⟨le_trans h.1 (min_le_left _ _), le_trans (le_max_left _ _) h.2⟩
    · exact ih _ q hq

theorem foldRange_attained (rs : List RefreshReq) (dr : DateRange) :
    ((foldRange rs dr).begin = dr.begin
      ∨ ∃ q ∈ rs, (foldRange rs dr).begin = (reqRange q.env q.tw).begin)
    ∧ ((foldRange rs dr).end_ = dr.end_
      ∨ ∃ q ∈ rs, (foldRange rs dr).end_ = (reqRange q.env q.tw).end_) := by
  induction rs generalizing dr with
  | nil => exact ⟨Or.inl rfl, Or.inl rfl⟩
  | cons r t ih =>
    have hfr : foldRange (r :: t) dr
        = foldRange t ⟨min (reqRange r.env r.tw).begin dr.begin,
                       max (reqRange r.env r.tw).end_ dr.end_⟩ := rfl
    have h := ih ⟨min (reqRange r.env r.tw).begin dr.begin,
                  max (reqRange r.env r.tw).end_ dr.end_⟩
    rw [hfr]
    constructor
    · rcases h.1 with h1 | ⟨q, hq, h1⟩
      · rcases le_total (reqRange r.env r.tw).begin dr.begin with hle | hle
        · exact Or.inr ⟨r, List.mem_cons_self r t, by rw [h1]; exact min_eq_left hle⟩
        · exact Or.inl (by rw [h1]; exact min_eq_right hle)
      · exact Or.inr ⟨q, List.mem_cons_of_mem r hq, h1⟩
    · rcases h.2 with h1 | ⟨q, hq, h1⟩
      · rcases le_total (reqRange r.env r.tw).end_ dr.end_ with hle | hle
        · exact Or.inl (by rw [h1]; exact max_eq_right hle)
        · exact Or.inr ⟨r, List.mem_cons_self r t, by rw [h1]; exact max_eq_left hle⟩
      · exact Or.inr ⟨q, List.mem_cons_of_mem r hq, h1⟩

/-- Each refresh through the merge path unions the requested range into
the stored one: over a whole peer-less sequence the stored range is the
`foldRange` of the starting entry's range. -/
theorem runRefreshes_range {j : String} :
    ∀ (rs : List RefreshReq) (s : MState) (dr : DateRange),
      (∀ r ∈ rs, r.env.peerAbsent = true) → s.dbInit = true →
      (∃ cd : CacheEntry, lookupA s.own.executionCache j = some cd
        ∧ cd.dateRange = some dr) →
      (runRefreshes s j rs).dbInit = true
      ∧ ∃ e : CacheEntry,
          lookupA (runRefreshes s j rs).own.executionCache j = some e
          ∧ e.dateRange = some (foldRange rs dr) := by
  intro rs
  induction rs with
  | nil =>
    intro s dr _ hdb h
    obtain ⟨cd, hl, hdr⟩ := h
    exact ⟨hdb, cd, hl, hdr⟩
  | cons r t ih =>
    intro s dr hpa hdb h
    obtain ⟨cd, hl, hdr⟩ := h
    obtain ⟨hR, hdb1, hec⟩ :=
      cacheExecutions_peerAbsent (hpa r (List.mem_cons_self r t)) hdb j r.xs r.tw
    have hrun : runRefreshes s j (r :: t)
        = runRefreshes (cacheExecutions s r.env j r.xs r.tw) j t := rfl
    have hfr : foldRange (r :: t) dr
        = foldRange t ⟨min (reqRange r.env r.tw).begin dr.begin,
                       max (reqRange r.env r.tw).end_ dr.end_⟩ := rfl
    rw [hrun, hfr]
    have hlook1 : lookupA (cacheExecutions s r.env j r.xs r.tw).own.executionCache j
        = some ⟨j, j, mergeById cd.data r.xs, r.env.nowMs,
                some (mergedRange cd.dateRange ⟨r.env.today - (r.tw : Int), r.env.today⟩),
                hR⟩ := by
      rw [hec, hl]
      exact lookupA_putA_self _ _ _
    apply ih _ _ (fun q hq => hpa q (List.mem_cons_of_mem r hq)) hdb1
    refine ⟨⟨j, j, mergeById cd.data r.xs, r.env.nowMs,
            some (mergedRange cd.dateRange ⟨r.env.today - (r.tw : Int), r.env.today⟩),
            hR⟩, hlook1, ?_⟩
    dsimp only
    rw [hdr]
    rfl

/-- C2 (amended): across any non-empty sequence of cache refreshes that
write through the merge path of `cacheExecutions` (peer store not
installed), starting from no entry, the stored entry's covered date range
equals the outer bounds of the union of all requested ranges — its begin
bounds every requested begin from below and is attained by one of them,
and symmetrically for its end — so the covered range never shrinks.  The
original claim extends this to the peer-copy path of `needsCacheRefresh`,
which instead replaces the stored range with the peer entry's; the
counterexample exhibits the resulting shrink. -/
theorem cacheExecutions_range_union {s : MState} {j : String}
    (r : RefreshReq) (rs : List RefreshReq)
    (hpa : ∀ q ∈ r :: rs, q.env.peerAbsent = true) (hdb : s.dbInit = true)
    (hnone : lookupA s.own.executionCache j = none) :
    ∃ e : CacheEntry,
      lookupA (runRefreshes s j (r :: rs)).own.executionCache j = some e
      ∧ ∃ dr : DateRange, e.dateRange = some dr
        ∧ (∀ q ∈ r :: rs, dr.begin ≤ (reqRange q.env q.tw).begin
            ∧ (reqRange q.env q.tw).end_ ≤ dr.end_)
        ∧ (∃ q ∈ r :: rs, dr.begin = (reqRange q.env q.tw).begin)
        ∧ (∃ q ∈ r :: rs, dr.end_ = (reqRange q.env q.tw).end_) := by
  obtain ⟨hR, hdb1, hec⟩ :=
    cacheExecutions_peerAbsent (hpa r (List.mem_cons_self r rs)) hdb j r.xs r.tw
  have hrun : runRefreshes s j (r :: rs)
      = runRefreshes (cacheExecutions s r.env j r.xs r.tw) j rs := rfl
  rw [hrun]
  have hex : ∃ cd : CacheEntry,
      lookupA (cacheExecutions s r.env j r.xs r.tw).own.executionCache j = some cd
      ∧ cd.dateRange = some (reqRange r.env r.tw) := by
    refine ⟨⟨j, j, r.xs, r.env.nowMs,
            some ⟨r.env.today - (r.tw : Int), r.env.today⟩, hR⟩, ?_, rfl⟩
    rw [hec, hnone]
    exact lookupA_putA_self _ _ _
  have hstep := runRefreshes_range rs (cacheExecutions s r.env j r.xs r.tw)
    (reqRange r.env r.tw) (fun q hq => hpa q (List.mem_cons_of_mem r hq)) hdb1 hex
  obtain ⟨hdbf, e, hle, hdre⟩ := hstep
  refine ⟨e, hle, foldRange rs (reqRange r.env r.tw), hdre, ?_, ?_, ?_⟩
  · intro q hq
    rcases List.mem_cons.mp hq with hq | hq
    · subst hq
      exact foldRange_le rs (reqRange q.env q.tw)
    · exact foldRange_mem rs (reqRange r.env r.tw) q hq
  · rcases (foldRange_attained rs (reqRange r.env r.tw)).1 with h1 | ⟨q, hq, h1⟩
    · exact ⟨r, List.mem_cons_self r rs, h1⟩
    · exact ⟨q, List.mem_cons_of_mem r hq, h1⟩
  · rcases (foldRange_attained rs (reqRange r.env r.tw)).2 with h1 | ⟨q, hq, h1⟩
    · exact ⟨r, List.mem_cons_self r rs, h1⟩
    · exact ⟨q, List.mem_cons_of_mem r hq, h1⟩

/-- C2 witness: two concrete refreshes with disjoint requested ranges
(days −3..0 and days 3..5) yield an entry whose range bounds and attains
both. -/
theorem cacheExecutions_range_union_witness :
    (∀ q ∈ [(⟨⟨true, true, 0, 0, []⟩, [], 3⟩ : RefreshReq),
            ⟨⟨true, true, 0, 5, []⟩, [], 2⟩], q.env.peerAbsent = true)
    ∧ ((⟨⟨true, [], []⟩, none, true, false, [], 0, 0, 0⟩ : MState).dbInit = true)
    ∧ lookupA (⟨⟨true, [], []⟩, none, true, false, [], 0, 0, 0⟩ : MState).own.executionCache
        "jobW" = none
    ∧ (∃ e : CacheEntry,
        lookupA (runRefreshes ⟨⟨true, [], []⟩, none, true, false, [], 0, 0, 0⟩ "jobW"
            [⟨⟨true, true, 0, 0, []⟩, [], 3⟩,
             ⟨⟨true, true, 0, 5, []⟩, [], 2⟩]).own.executionCache "jobW" = some e
        ∧ ∃ dr : DateRange, e.dateRange = some dr
          ∧ (∀ q ∈ [(⟨⟨true, true, 0, 0, []⟩, [], 3⟩ : RefreshReq),
                    ⟨⟨true, true, 0, 5, []⟩, [], 2⟩],
              dr.begin ≤ (reqRange q.env q.tw).begin
              ∧ (reqRange q.env q.tw).end_ ≤ dr.end_)
          ∧ (∃ q ∈ [(⟨⟨true, true, 0, 0, []⟩, [], 3⟩ : RefreshReq),
                    ⟨⟨true, true, 0, 5, []⟩, [], 2⟩],
              dr.begin = (reqRange q.env q.tw).begin)
          ∧ (∃ q ∈ [(⟨⟨true, true, 0, 0, []⟩, [], 3⟩ : RefreshReq),
                    ⟨⟨true, true, 0, 5, []⟩, [], 2⟩],
              dr.end_ = (reqRange q.env q.tw).end_)) :=
  ⟨by decide, rfl, rfl,
   cacheExecutions_range_union ⟨⟨true, true, 0, 0, []⟩, [], 3⟩
     [⟨⟨true, true, 0, 5, []⟩, [], 2⟩] (by decide) rfl rfl⟩

end JobMetrics
